import Mathlib

/-!
Verification development for the markdown-and-math rendering pipeline and the
in-memory store operations of the study-aid application.

Strings are modelled as `List Char`.  Each JavaScript `String.replace` pass with
a global regex is modelled by a scanner that walks the string left to right,
exactly as the regex engine does: at every position it first tries to start a
match; on success it emits the replacement and resumes scanning right after the
matched text (replacements are never rescanned); on failure it emits one
character and advances by one.  The scanners are structurally recursive on a
fuel argument initialised to the string length; since every step consumes at
least one input character this fuel is always sufficient, and a fuel
monotonicity lemma is proved for each scanner.
-/

namespace S2P

/-- Whitespace class of the JavaScript regex escape for whitespace
(the ASCII cases plus no-break space). -/
def isWs (c : Char) : Bool :=
  c = ' ' || c = '\t' || c = '\n' || c = '\r' || c = '\x0b' || c = '\x0c' || c = ' '

/-- Split a string at the first occurrence of the word `w`:
`splitFirst w s = some (p, q)` means `s = p ++ w ++ q` and `w` starts at no
earlier position.  `none` means `w` does not occur (for nonempty `w`). -/
def splitFirst (w : List Char) : List Char → Option (List Char × List Char)
  | [] => none
  | c :: r =>
    if w.isPrefixOf (c :: r) then some ([], (c :: r).drop w.length)
    else
      match splitFirst w r with
      | some (p, q) => some (c :: p, q)
      | none => none

/-- Does the word `w` occur as a contiguous substring of `s`? -/
def hasSub (w : List Char) : List Char → Bool
  | [] => w.isEmpty
  | c :: r => w.isPrefixOf (c :: r) || hasSub w r

/-- Decimal digit character for a value below ten. -/
def digitChar : Nat → Char
  | 0 => '0' | 1 => '1' | 2 => '2' | 3 => '3' | 4 => '4'
  | 5 => '5' | 6 => '6' | 7 => '7' | 8 => '8' | _ => '9'

/-- Fuelled helper for the decimal representation; the fuel bounds the
recursion depth and is always at least the digit count when it is at least
the number itself. -/
def natToDigitsF : Nat → Nat → List Char
  | 0, n => [digitChar (n % 10)]
  | f + 1, n =>
    if n < 10 then [digitChar n]
    else natToDigitsF f (n / 10) ++ [digitChar (n % 10)]

/-- Decimal representation of a natural number, as the JavaScript template
interpolation of a number produces it (no sign, no leading zeros). -/
def natToDigits (n : Nat) : List Char := natToDigitsF n n

/-- Numeric value of one digit character. -/
def digitVal (c : Char) : Nat := c.toNat - 48

/-- Numeric value of a digit string, as JavaScript parseInt reads it. -/
def digitsVal (l : List Char) : Nat := l.foldl (fun a c => 10 * a + digitVal c) 0

/-- The string JavaScript produces when coercing undefined to a string;
it is what a replace callback inserts after an out-of-range array read. -/
def undefStr : List Char := ("undefined").toList

/-- The END marker closing a masking token. -/
def endW : List Char := ['E', 'N', 'D']

/-- Parse the tail of a masking token: a nonempty digit run followed by the
letters E, N, D; returns the numeric index and the rest of the string. -/
def parseIdx (s : List Char) : Option (Nat × List Char) :=
  if (s.takeWhile Char.isDigit).isEmpty then none
  else if endW.isPrefixOf (s.drop (s.takeWhile Char.isDigit).length) then
    some (digitsVal (s.takeWhile Char.isDigit),
      (s.drop (s.takeWhile Char.isDigit).length).drop 3)
  else none

/-- The display-math token word. -/
def wordB : List Char := ['M', 'A', 'T', 'H', 'B', 'L', 'O', 'C', 'K']

/-- The inline-math token word. -/
def wordI : List Char := ['M', 'A', 'T', 'H', 'I', 'N', 'L', 'I', 'N', 'E']

/-- Display token with index `i`, as pushed by the masking pass. -/
def tokD (i : Nat) : List Char := wordB ++ natToDigits i ++ endW

/-- Inline token with index `i`. -/
def tokI (i : Nat) : List Char := wordI ++ natToDigits i ++ endW

/-- The display-math delimiter, two dollar signs. -/
def dd : List Char := ['$', '$']

/-- The inline-math delimiter, one dollar sign. -/
def sd : List Char := ['$']

/-- One masking pass: the scanner for a global replace of
delimiter, non-greedy content, delimiter, where every match is pushed onto the
list and replaced by a token built from the index it received.  Used with the
two-dollar delimiter and display tokens, then with the one-dollar delimiter and
inline tokens, sharing one list, exactly as the source shares one array. -/
def maskGo (del : List Char) (mk : Nat → List Char) :
    Nat → List Char → List (List Char) → List Char × List (List Char)
  | 0, s, xs => (s, xs)
  | _ + 1, [], xs => ([], xs)
  | f + 1, c :: r, xs =>
    if del.isPrefixOf (c :: r) then
      match splitFirst del ((c :: r).drop del.length) with
      | some (content, after) =>
        let res := maskGo del mk f after (xs ++ [del ++ content ++ del])
        (mk xs.length ++ res.1, res.2)
      | none =>
        let res := maskGo del mk f r xs
        (c :: res.1, res.2)
    else
      let res := maskGo del mk f r xs
      (c :: res.1, res.2)

/-- Display-math masking pass over a whole string. -/
def maskDisplay (s : List Char) (xs : List (List Char)) : List Char × List (List Char) :=
  maskGo dd tokD s.length s xs

/-- Inline-math masking pass over a whole string. -/
def maskInline (s : List Char) (xs : List (List Char)) : List Char × List (List Char) :=
  maskGo sd tokI s.length s xs

/-- One unmasking pass: the scanner for a global replace of the token word
followed by digits and the END marker; the digits select an entry of the list,
an out-of-range index inserting the undefined coercion string, exactly as the
JavaScript replace callback does. -/
def unmaskGo (w : List Char) (xs : List (List Char)) : Nat → List Char → List Char
  | 0, s => s
  | _ + 1, [] => []
  | f + 1, c :: r =>
    if w.isPrefixOf (c :: r) then
      match parseIdx ((c :: r).drop w.length) with
      | some (i, after) => xs.getD i undefStr ++ unmaskGo w xs f after
      | none => c :: unmaskGo w xs f r
    else c :: unmaskGo w xs f r

/-- Unmasking pass over a whole string. -/
def unmask (w : List Char) (xs : List (List Char)) (s : List Char) : List Char :=
  unmaskGo w xs s.length s

/-- Three backticks, the fence marker. -/
def ticks : List Char := ['`', '`', '`']

/-- The latex-tagged fence opener matched case-insensitively. -/
def ticksLatex : List Char := ['`', '`', '`', 'l', 'a', 't', 'e', 'x']

/-- The latex fence language tag. -/
def tagLatex : List Char := ['l', 'a', 't', 'e', 'x']

/-- The markdown fence language tag. -/
def tagMarkdown : List Char := ['m', 'a', 'r', 'k', 'd', 'o', 'w', 'n']

/-- The math fence language tag. -/
def tagMath : List Char := ['m', 'a', 't', 'h']

/-- The json fence language tag. -/
def tagJson : List Char := ['j', 's', 'o', 'n']

/-- Case-insensitive prefix test for an all-lowercase ASCII pattern, as the
regex case-insensitivity flag compares characters. -/
def ciPfx : List Char → List Char → Bool
  | [], _ => true
  | _ :: _, [] => false
  | p :: ps, c :: cs => (c = p || (p.isLower && c.toNat = p.toNat - 32)) && ciPfx ps cs

/-- Try to strip one of the fence language tags (in the alternation order of
the regex, first match wins, case-insensitively). -/
def stripTag (tags : List (List Char)) (s : List Char) : List Char :=
  match tags with
  | [] => s
  | t :: ts => if ciPfx t s then s.drop t.length else stripTag ts s

/-- Scanner for the fence-removing replace of the masking component and of the
AI-response cleaning helper: three backticks, an optional language tag from
`tags`, an optional newline, non-greedy content, an optional newline, three
backticks — replaced by the content alone. -/
def fenceGo (tags : List (List Char)) : Nat → List Char → List Char
  | 0, s => s
  | _ + 1, [] => []
  | f + 1, c :: r =>
    if ticks.isPrefixOf (c :: r) then
      let t := (c :: r).drop 3
      let t1 := stripTag tags t
      let t2 := if t1.head? = some '\n' then t1.tail else t1
      match splitFirst ticks t2 with
      | some (p, after) =>
        let content := if p.getLast? = some '\n' then p.dropLast else p
        content ++ fenceGo tags f after
      | none => c :: fenceGo tags f r
    else c :: fenceGo tags f r

/-- Scanner for the backtick-wrapped math replaces of the masking component: a
backtick, the dollar delimiter, non-greedy content, the delimiter, a backtick —
replaced by the group, dropping the backticks. -/
def tickGo (del : List Char) : Nat → List Char → List Char
  | 0, s => s
  | _ + 1, [] => []
  | f + 1, c :: r =>
    if ('`' :: del).isPrefixOf (c :: r) then
      match splitFirst (del ++ ['`']) ((c :: r).drop (del.length + 1)) with
      | some (p, after) => del ++ p ++ del ++ tickGo del f after
      | none => c :: tickGo del f r
    else c :: tickGo del f r

/-- Fence tags recognised by the masking component's cleaning step. -/
def tagsP1 : List (List Char) :=
  [tagLatex, tagMarkdown, tagMath, tagJson]

/-- Fence tags recognised by the AI-service math-string cleaning helper. -/
def tagsSvc : List (List Char) :=
  [tagLatex, tagMarkdown, tagMath]

/-- Step 1 of the masking component: remove fence wrappers, then unwrap
backtick-wrapped display math, then backtick-wrapped inline math. -/
def cleanStep (s : List Char) : List Char :=
  let a := fenceGo tagsP1 s.length s
  let b := tickGo dd a.length a
  tickGo sd b.length b

/-- The cleaning helper of the AI service applied to a response string
(fence unwrapping only, with its shorter tag list). -/
def cleanMathString (s : List Char) : List Char :=
  match s with
  | [] => []
  | _ => fenceGo tagsSvc s.length s

/-- The masking component's whole pipeline: empty input short-circuits to
empty output; otherwise clean fences, mask display math, mask inline math,
convert markdown (the conversion is a parameter: the source calls an external
library, falling back to the identity when it is absent), then substitute the
display tokens and after them the inline tokens back. -/
def processContent (md : List Char → List Char) (text : List Char) : List Char :=
  match text with
  | [] => []
  | _ =>
    let clean := cleanStep text
    let m1 := maskDisplay clean []
    let m2 := maskInline m1.1 m1.2
    let html := md m2.1
    unmask wordI m2.2 (unmask wordB m2.2 html)

/-- Drop trailing whitespace, as the greedy trailing whitespace part of the
fence regex of the display component consumes it out of the group. -/
def trimEndWs (p : List Char) : List Char := (p.reverse.dropWhile isWs).reverse

/-- Scanner for the latex-fence replace of the display component.  The
replacement string of the source collapses its doubled dollar escapes, so each
side of the group receives a single dollar sign. -/
def latexFenceGo : Nat → List Char → List Char
  | 0, s => s
  | _ + 1, [] => []
  | f + 1, c :: r =>
    if ciPfx ticksLatex (c :: r) then
      let u := (c :: r).drop 8
      let u1 := u.dropWhile isWs
      match splitFirst ticks u1 with
      | some (p, after) => '$' :: trimEndWs p ++ '$' :: latexFenceGo f after
      | none => c :: latexFenceGo f r
    else c :: latexFenceGo f r

/-- Scanner for the untagged-fence replace of the display component: content
containing a backslash or an equals sign is wrapped in double dollars (the
callback builds those with a template literal, so they really are doubled);
any other fence is kept verbatim. -/
def untagGo : Nat → List Char → List Char
  | 0, s => s
  | _ + 1, [] => []
  | f + 1, c :: r =>
    if ticks.isPrefixOf (c :: r) then
      let u := (c :: r).drop 3
      let lead := u.takeWhile isWs
      let u1 := u.dropWhile isWs
      match splitFirst ticks u1 with
      | some (p, after) =>
        let p1 := trimEndWs p
        if p1.contains '\\' || p1.contains '=' then
          dd ++ p1 ++ dd ++ untagGo f after
        else ticks ++ lead ++ p ++ ticks ++ untagGo f after
      | none => c :: untagGo f r
    else c :: untagGo f r

/-- Scanner replacing every occurrence of the two-character pattern `x y` by
the single character `z`; models the four backslash-delimiter replaces, whose
replacement strings each denote one literal dollar sign. -/
def repl2 (x y z : Char) : Nat → List Char → List Char
  | 0, s => s
  | _ + 1, [] => []
  | _ + 1, [a] => [a]
  | f + 1, a :: b :: r =>
    if a = x && b = y then z :: repl2 x y z f r
    else a :: repl2 x y z f (b :: r)

/-- The display component's preprocessing: latex fences, untagged fences, then
the four alternate-delimiter replaces (each inserting a single dollar). -/
def prepareContent (t : List Char) : List Char :=
  match t with
  | [] => []
  | _ =>
    let s1 := latexFenceGo t.length t
    let s2 := untagGo s1.length s1
    let s3 := repl2 '\\' '[' '$' s2.length s2
    let s4 := repl2 '\\' ']' '$' s3.length s3
    let s5 := repl2 '\\' '(' '$' s4.length s4
    repl2 '\\' ')' '$' s5.length s5

/-- Scanner for a paired-delimiter global replace (bold, italics): delimiter,
non-greedy content, delimiter, rewritten to an opening tag, the content and a
closing tag. -/
def pairGo (del pre post : List Char) : Nat → List Char → List Char
  | 0, s => s
  | _ + 1, [] => []
  | f + 1, c :: r =>
    if del.isPrefixOf (c :: r) then
      match splitFirst del ((c :: r).drop del.length) with
      | some (p, after) => pre ++ p ++ post ++ pairGo del pre post f after
      | none => c :: pairGo del pre post f r
    else c :: pairGo del pre post f r

/-- A line-anchored replace: when the line starts with the marker, wrap the
rest of the line in the given tags. -/
def linePass (pfxW pre post : List Char) (l : List Char) : List Char :=
  if pfxW.isPrefixOf l then pre ++ l.drop pfxW.length ++ post else l

/-- Split on newline characters, the way the line-anchored multiline regexes
see the string as lines. -/
def splitNl : List Char → List (List Char)
  | [] => [[]]
  | c :: r =>
    if c = '\n' then [] :: splitNl r
    else
      match splitNl r with
      | [] => [[c]]
      | l :: ls => (c :: l) :: ls

/-- Join lines with a string in between. -/
def joinWith (sep : List Char) : List (List Char) → List Char
  | [] => []
  | [l] => l
  | l :: ls => l ++ sep ++ joinWith sep ls

/-- The per-line part of the display component's formatting: the three header
passes, bold, italics, list items and blockquotes, in the order of the source;
none of these matches can cross a newline, so the global passes agree with the
per-line composition. -/
def lineFmt (l : List Char) : List Char :=
  let a := linePass (("### ").toList)
    (("<h3 class=\"text-lg font-bold text-paris-500 mt-4 mb-2 font-serif\">").toList)
    (("</h3>").toList) l
  let b := linePass (("## ").toList)
    (("<h2 class=\"text-xl font-bold text-paris-700 mt-5 mb-3 border-b border-mist-200 pb-1 font-serif\">").toList)
    (("</h2>").toList) a
  let c := linePass (("# ").toList)
    (("<h1 class=\"text-2xl font-bold text-paris-900 mt-6 mb-4 font-serif\">").toList)
    (("</h1>").toList) b
  let d := pairGo (['*', '*'])
    (("<strong class=\"text-paris-900 font-bold\">").toList)
    (("</strong>").toList) c.length c
  let e := pairGo (['*'])
    (("<em class=\"text-paris-600 italic\">").toList)
    (("</em>").toList) d.length d
  let f := linePass (("- ").toList)
    (("<li class=\"ml-4 list-disc text-paris-800 mb-1\">").toList)
    (("</li>").toList) e
  linePass (("> ").toList)
    (("<blockquote class=\"border-l-4 border-peach-400 bg-peach-100 p-3 italic text-paris-800 my-2 rounded-r shadow-sm\">").toList)
    (("</blockquote>").toList) f

/-- The display component's whole formatting pipeline: preprocessing followed
by the markdown-ish replaces and the newline to break-tag replace. -/
def formatText (t : List Char) : List Char :=
  joinWith (("<br />").toList) ((splitNl (prepareContent t)).map lineFmt)

/-! ### Segment model of well-separated texts

A text is viewed as an interleaving of plain chunks, display spans and inline
spans; rendering flattens it back to the string the pipeline receives.  The
well-formedness conditions carve out the inputs on which the masking passes
recognise exactly the intended spans. -/

/-- No dollar sign occurs in the chunk. -/
def noDollar (t : List Char) : Bool := t.all (fun c => !(c = '$'))

/-- No backtick occurs in the chunk. -/
def noTick (t : List Char) : Bool := t.all (fun c => !(c = '`'))

/-- The letter M does not occur (no masking-token word can start here). -/
def noM (t : List Char) : Bool := t.all (fun c => !(c = 'M'))

/-- A chunk is plain: free of dollars, backticks and the two token words. -/
def chunkOk (t : List Char) : Bool :=
  noDollar t && noTick t && !hasSub wordB t && !hasSub wordI t

/-- A piece of a well-separated text: plain text, a display span's content or
an inline span's content. -/
inductive Seg where
  | txt : List Char → Seg
  | disp : List Char → Seg
  | inl : List Char → Seg
deriving DecidableEq

/-- The string a segment contributes. -/
def renderSeg : Seg → List Char
  | .txt t => t
  | .disp c => dd ++ c ++ dd
  | .inl c => sd ++ c ++ sd

/-- The string of a segment list. -/
def render : List Seg → List Char
  | [] => []
  | s :: r => renderSeg s ++ render r

/-- Per-segment conditions: all pieces are plain chunks and an inline span's
content is nonempty (an empty one would render as a display delimiter). -/
def segOk : Seg → Bool
  | .txt t => chunkOk t
  | .disp c => chunkOk c
  | .inl c => !c.isEmpty && chunkOk c

/-- Separation: an inline span is followed by a nonempty plain chunk or by the
end of the text, so its closing dollar never abuts another dollar, and two
plain chunks are never adjacent (adjacent chunks are one chunk), so no token
word can straddle a chunk boundary. -/
def sepOk : List Seg → Bool
  | [] => true
  | Seg.inl _ :: [] => true
  | Seg.inl _ :: Seg.txt t :: r => !t.isEmpty && sepOk (Seg.txt t :: r)
  | Seg.inl _ :: Seg.disp _ :: _ => false
  | Seg.inl _ :: Seg.inl _ :: _ => false
  | Seg.txt _ :: Seg.txt _ :: _ => false
  | Seg.txt _ :: r => sepOk r
  | Seg.disp _ :: r => sepOk r

/-- A well-separated segment list. -/
def wfSegs (l : List Seg) : Bool := l.all segOk && sepOk l

/-- The display spans of a segment list, delimiters included, in order. -/
def dspans : List Seg → List (List Char)
  | [] => []
  | Seg.disp c :: r => (dd ++ c ++ dd) :: dspans r
  | _ :: r => dspans r

/-- The inline spans of a segment list, delimiters included, in order. -/
def ispans : List Seg → List (List Char)
  | [] => []
  | Seg.inl c :: r => (sd ++ c ++ sd) :: ispans r
  | _ :: r => ispans r

/-- The string after the display-masking pass, display spans replaced by
display tokens numbered from `n`. -/
def mrD : List Seg → Nat → List Char
  | [], _ => []
  | Seg.txt t :: r, n => t ++ mrD r n
  | Seg.disp _ :: r, n => tokD n ++ mrD r (n + 1)
  | Seg.inl c :: r, n => sd ++ c ++ sd ++ mrD r n

/-- The string after both masking passes: display tokens numbered from `n`,
inline tokens numbered from `i`. -/
def mr2 : List Seg → Nat → Nat → List Char
  | [], _, _ => []
  | Seg.txt t :: r, n, i => t ++ mr2 r n i
  | Seg.disp _ :: r, n, i => tokD n ++ mr2 r (n + 1) i
  | Seg.inl _ :: r, n, i => tokI i ++ mr2 r n (i + 1)

/-- The string after the display-unmasking pass: display spans restored,
inline tokens numbered from `i` still in place. -/
def ur1 : List Seg → Nat → List Char
  | [], _ => []
  | Seg.txt t :: r, i => t ++ ur1 r i
  | Seg.disp c :: r, i => dd ++ c ++ dd ++ ur1 r i
  | Seg.inl _ :: r, i => tokI i ++ ur1 r (i + 1)

/-! ### Data model of the stored records and the store update operations -/

/-- The importance classification field's enumerated values. -/
inductive Importance where
  | high | medium | low
deriving DecidableEq

/-- The provenance of an exercise record. -/
inductive ProbSource where
  | user | ai
deriving DecidableEq

/-- A definition record of the central store. -/
structure DefinitionItem where
  id : String
  createdAt : Nat
  subjectId : String
  chapterId : String
  term : String
  userContent : String
  userNotes : Option String
  aiContentEn : Option String
  aiContentZh : Option String
  funAnalogy : Option String
  chapterConnection : Option String
  uclImportance : Importance
  flashcardSummary : Option String
  relatedExtensions : Option String
  mastery : Nat
  lastReviewed : Nat
  isLoading : Bool
deriving DecidableEq

/-- A theorem record of the central store. -/
structure TheoremItem where
  id : String
  createdAt : Nat
  subjectId : String
  chapterId : String
  name : String
  correctedName : Option String
  content : String
  userNotes : Option String
  proofImage : Option String
  proofSteps : Option String
  logicMapping : Option String
  concreteExample : Option String
  flashcardSummary : Option String
  uclImportance : Importance
  mastery : Nat
  lastReviewed : Nat
  isLoading : Bool
deriving DecidableEq

/-- One worked step of an exercise record. -/
structure ProblemStep where
  stepNumber : Nat
  description : String
  math : String
  explanation : String
deriving DecidableEq

/-- An exercise record of the central store. -/
structure ProblemItem where
  id : String
  createdAt : Nat
  subjectId : String
  chapterId : String
  source : ProbSource
  content : String
  originalImages : Option (List String)
  summary : Option String
  steps : List ProblemStep
  userAnswer : Option String
  solutionImages : Option (List String)
  struggleNote : Option String
  struggleImages : Option (List String)
  knowledgePoints : List String
  uclDifficulty : String
  isSolved : Bool
  isWrong : Bool
  mastery : Nat
deriving DecidableEq

/-- A partial update of a definition record: a field that is `none` is absent
from the update object and the spread keeps the old value. -/
structure DefUpd where
  id : Option String := none
  createdAt : Option Nat := none
  subjectId : Option String := none
  chapterId : Option String := none
  term : Option String := none
  userContent : Option String := none
  userNotes : Option (Option String) := none
  aiContentEn : Option (Option String) := none
  aiContentZh : Option (Option String) := none
  funAnalogy : Option (Option String) := none
  chapterConnection : Option (Option String) := none
  uclImportance : Option Importance := none
  flashcardSummary : Option (Option String) := none
  relatedExtensions : Option (Option String) := none
  mastery : Option Nat := none
  lastReviewed : Option Nat := none
  isLoading : Option Bool := none
deriving DecidableEq

/-- A partial update of a theorem record. -/
structure ThmUpd where
  id : Option String := none
  createdAt : Option Nat := none
  subjectId : Option String := none
  chapterId : Option String := none
  name : Option String := none
  correctedName : Option (Option String) := none
  content : Option String := none
  userNotes : Option (Option String) := none
  proofImage : Option (Option String) := none
  proofSteps : Option (Option String) := none
  logicMapping : Option (Option String) := none
  concreteExample : Option (Option String) := none
  flashcardSummary : Option (Option String) := none
  uclImportance : Option Importance := none
  mastery : Option Nat := none
  lastReviewed : Option Nat := none
  isLoading : Option Bool := none
deriving DecidableEq

/-- A partial update of an exercise record. -/
structure ProbUpd where
  id : Option String := none
  createdAt : Option Nat := none
  subjectId : Option String := none
  chapterId : Option String := none
  source : Option ProbSource := none
  content : Option String := none
  originalImages : Option (Option (List String)) := none
  summary : Option (Option String) := none
  steps : Option (List ProblemStep) := none
  userAnswer : Option (Option String) := none
  solutionImages : Option (Option (List String)) := none
  struggleNote : Option (Option String) := none
  struggleImages : Option (Option (List String)) := none
  knowledgePoints : Option (List String) := none
  uclDifficulty : Option String := none
  isSolved : Option Bool := none
  isWrong : Option Bool := none
  mastery : Option Nat := none
deriving DecidableEq

/-- The object spread of a record and a partial update: present update fields
override, absent ones keep the record's value. -/
def applyDefUpd (d : DefinitionItem) (u : DefUpd) : DefinitionItem where
  id := u.id.getD d.id
  createdAt := u.createdAt.getD d.createdAt
  subjectId := u.subjectId.getD d.subjectId
  chapterId := u.chapterId.getD d.chapterId
  term := u.term.getD d.term
  userContent := u.userContent.getD d.userContent
  userNotes := u.userNotes.getD d.userNotes
  aiContentEn := u.aiContentEn.getD d.aiContentEn
  aiContentZh := u.aiContentZh.getD d.aiContentZh
  funAnalogy := u.funAnalogy.getD d.funAnalogy
  chapterConnection := u.chapterConnection.getD d.chapterConnection
  uclImportance := u.uclImportance.getD d.uclImportance
  flashcardSummary := u.flashcardSummary.getD d.flashcardSummary
  relatedExtensions := u.relatedExtensions.getD d.relatedExtensions
  mastery := u.mastery.getD d.mastery
  lastReviewed := u.lastReviewed.getD d.lastReviewed
  isLoading := u.isLoading.getD d.isLoading

/-- The object spread of a theorem record and a partial update. -/
def applyThmUpd (d : TheoremItem) (u : ThmUpd) : TheoremItem where
  id := u.id.getD d.id
  createdAt := u.createdAt.getD d.createdAt
  subjectId := u.subjectId.getD d.subjectId
  chapterId := u.chapterId.getD d.chapterId
  name := u.name.getD d.name
  correctedName := u.correctedName.getD d.correctedName
  content := u.content.getD d.content
  userNotes := u.userNotes.getD d.userNotes
  proofImage := u.proofImage.getD d.proofImage
  proofSteps := u.proofSteps.getD d.proofSteps
  logicMapping := u.logicMapping.getD d.logicMapping
  concreteExample := u.concreteExample.getD d.concreteExample
  flashcardSummary := u.flashcardSummary.getD d.flashcardSummary
  uclImportance := u.uclImportance.getD d.uclImportance
  mastery := u.mastery.getD d.mastery
  lastReviewed := u.lastReviewed.getD d.lastReviewed
  isLoading := u.isLoading.getD d.isLoading

/-- The object spread of an exercise record and a partial update. -/
def applyProbUpd (d : ProblemItem) (u : ProbUpd) : ProblemItem where
  id := u.id.getD d.id
  createdAt := u.createdAt.getD d.createdAt
  subjectId := u.subjectId.getD d.subjectId
  chapterId := u.chapterId.getD d.chapterId
  source := u.source.getD d.source
  content := u.content.getD d.content
  originalImages := u.originalImages.getD d.originalImages
  summary := u.summary.getD d.summary
  steps := u.steps.getD d.steps
  userAnswer := u.userAnswer.getD d.userAnswer
  solutionImages := u.solutionImages.getD d.solutionImages
  struggleNote := u.struggleNote.getD d.struggleNote
  struggleImages := u.struggleImages.getD d.struggleImages
  knowledgePoints := u.knowledgePoints.getD d.knowledgePoints
  uclDifficulty := u.uclDifficulty.getD d.uclDifficulty
  isSolved := u.isSolved.getD d.isSolved
  isWrong := u.isWrong.getD d.isWrong
  mastery := u.mastery.getD d.mastery

/-- The central store's update of a definition by id: map over the collection
replacing every record whose id matches by the spread of the record and the
update, leaving every other record in place. -/
def updateDefinition (i : String) (u : DefUpd) (l : List DefinitionItem) :
    List DefinitionItem :=
  l.map fun d => if d.id = i then applyDefUpd d u else d

/-- The central store's update of a theorem record by id. -/
def updateTheorem (i : String) (u : ThmUpd) (l : List TheoremItem) :
    List TheoremItem :=
  l.map fun d => if d.id = i then applyThmUpd d u else d

/-- The central store's update of an exercise record by id. -/
def updateProblem (i : String) (u : ProbUpd) (l : List ProblemItem) :
    List ProblemItem :=
  l.map fun d => if d.id = i then applyProbUpd d u else d

/-- The fields of a parsed AI expansion response used by the add handler. -/
structure ExpandOut where
  ai_content_en : Option String
  ai_content_zh : Option String
  fun_analogy : Option String
  chapter_connection : Option String
  ucl_importance : Importance
  extensions : Option String
  flashcard_summary : Option String

/-- The update the definitions add handler applies when the awaited AI call
settles: the fulfilled branch copies the response fields and clears the
loading flag; the rejected branch (the catch block) writes the error
placeholder into the English content field and clears the loading flag.  The
settled promise is modelled as an exceptional value. -/
def handleAddOutcome (r : Except Unit ExpandOut) : DefUpd :=
  match r with
  | .ok o =>
    { aiContentEn := some o.ai_content_en
      aiContentZh := some o.ai_content_zh
      funAnalogy := some o.fun_analogy
      chapterConnection := some o.chapter_connection
      uclImportance := some o.ucl_importance
      relatedExtensions := some o.extensions
      flashcardSummary := some o.flashcard_summary
      isLoading := some false }
  | .error _ =>
    { aiContentEn := some (some "Error generating content.")
      isLoading := some false }

/-- The chapter-summary generator on a settled AI call: on fulfilment the
response text (or, when it is absent or empty, the could-not placeholder) is
cleaned and returned; the catch branch returns the error placeholder string
instead of rethrowing. -/
def genSummary (r : Except Unit (Option (List Char))) : List Char :=
  match r with
  | .ok t =>
    let s := t.getD []
    cleanMathString (if s.isEmpty then ("Could not generate summary.").toList else s)
  | .error _ => ("Error generating summary.").toList

/-! ### Concrete instances used by the witnesses -/

/-- A concrete definition record. -/
def defW : DefinitionItem where
  id := "d1"
  createdAt := 100
  subjectId := "Analysis"
  chapterId := "Sequences"
  term := "limit"
  userContent := "the value approached"
  userNotes := none
  aiContentEn := none
  aiContentZh := none
  funAnalogy := none
  chapterConnection := none
  uclImportance := Importance.medium
  flashcardSummary := none
  relatedExtensions := none
  mastery := 1
  lastReviewed := 100
  isLoading := true

/-- A second concrete definition record with a different id. -/
def defW2 : DefinitionItem :=
  { defW with id := "d2", term := "supremum" }

/-- A concrete partial update of a definition record. -/
def defUpdW : DefUpd where
  aiContentEn := some (some "An explanation.")
  isLoading := some false

/-- A concrete theorem record. -/
def thmW : TheoremItem where
  id := "t1"
  createdAt := 100
  subjectId := "Analysis"
  chapterId := "Sequences"
  name := "Bolzano"
  correctedName := none
  content := "every bounded sequence has a convergent subsequence"
  userNotes := none
  proofImage := none
  proofSteps := none
  logicMapping := none
  concreteExample := none
  flashcardSummary := none
  uclImportance := Importance.high
  mastery := 1
  lastReviewed := 100
  isLoading := false

/-- A concrete partial update of a theorem record. -/
def thmUpdW : ThmUpd where
  proofSteps := some (some "step one")
  isLoading := some false

/-- A concrete exercise record. -/
def probW : ProblemItem where
  id := "p1"
  createdAt := 100
  subjectId := "Analysis"
  chapterId := "Sequences"
  source := ProbSource.user
  content := "show the limit is zero"
  originalImages := none
  summary := none
  steps := []
  userAnswer := none
  solutionImages := none
  struggleNote := none
  struggleImages := none
  knowledgePoints := []
  uclDifficulty := "6"
  isSolved := false
  isWrong := false
  mastery := 1

/-- A concrete partial update of an exercise record. -/
def probUpdW : ProbUpd where
  isSolved := some true

/-- A concrete well-separated segment list used by witnesses: plain text, an
inline span, plain text, a display span, plain text. -/
def segsW : List Seg :=
  [Seg.txt (("Let ").toList), Seg.inl (("x_i * y_i").toList),
   Seg.txt ((" hold, so ").toList), Seg.disp (("\\int f(x) dx = 1").toList),
   Seg.txt ((" ends.").toList)]

/-! ### Theorems -/

/-- Indexing a mapped list at a defined position. -/
theorem getq_map {α β : Type} (g : α → β) (l : List α) (j : Nat) (d : α)
    (hj : l[j]? = some d) : (l.map g)[j]? = some (g d) := by
  induction l generalizing j with
  | nil => simp at hj
  | cons a r ih =>
    cases j with
    | zero =>
      simp only [List.getElem?_cons_zero, Option.some_inj] at hj
      subst hj
      simp
    | succ k =>
      simp only [List.getElem?_cons_succ] at hj
      simpa using ih k hj

/-- A map whose function fixes every element of the list is the identity. -/
theorem map_fix {α : Type} (g : α → α) (l : List α)
    (h : ∀ a ∈ l, g a = a) : l.map g = l := by
  induction l with
  | nil => rfl
  | cons a r ih =>
    rw [List.map_cons, h a (List.mem_cons_self a r),
      ih fun b hb => h b (List.mem_cons_of_mem a hb)]

/-- Unfolding of the boolean prefix test on two cons cells. -/
theorem pfxOf_cons_iff {a c : Char} {w r : List Char} :
    (a :: w).isPrefixOf (c :: r) = true ↔ a = c ∧ w.isPrefixOf r = true := by
  simp [List.isPrefixOf]

/-- A list is a prefix of itself followed by anything. -/
theorem pfxOf_self_append (w z : List Char) : w.isPrefixOf (w ++ z) = true := by
  induction w with
  | nil => simp [List.isPrefixOf]
  | cons a w ih => exact pfxOf_cons_iff.2 ⟨rfl, ih⟩

/-- A prefix followed by the corresponding drop reassembles the string. -/
theorem pfxOf_eq_append {w s : List Char} (h : w.isPrefixOf s = true) :
    w ++ s.drop w.length = s := by
  induction w generalizing s with
  | nil => simp
  | cons a w ih =>
    cases s with
    | nil => simp [List.isPrefixOf] at h
    | cons c r =>
      rcases pfxOf_cons_iff.1 h with ⟨rfl, h2⟩
      simpa using ih h2

/-- The first character of a string with a given nonempty prefix. -/
theorem pfxOf_head {x : Char} {w : List Char} (hw : w.head? = some x)
    {c : Char} {r : List Char} (h : w.isPrefixOf (c :: r) = true) : c = x := by
  cases w with
  | nil => simp at hw
  | cons a w =>
    rcases pfxOf_cons_iff.1 h with ⟨h1, _⟩
    simp only [List.head?_cons, Option.some_inj] at hw
    rw [← h1, hw]

/-- A word starting with `x` is no prefix of a string starting otherwise. -/
theorem not_pfxOf_of_head {x c : Char} {w : List Char} (hw : w.head? = some x)
    (hc : c ≠ x) (r : List Char) : w.isPrefixOf (c :: r) = false := by
  cases hb : w.isPrefixOf (c :: r) with
  | false => rfl
  | true => exact absurd (pfxOf_head hw hb) hc

/-- A prefix of a string is a prefix of any extension of it. -/
theorem pfxOf_append_ext {w s : List Char} (h : w.isPrefixOf s = true) (b : List Char) :
    w.isPrefixOf (s ++ b) = true := by
  induction w generalizing s with
  | nil => simp [List.isPrefixOf]
  | cons a w ih =>
    cases s with
    | nil => simp [List.isPrefixOf] at h
    | cons c r =>
      rcases pfxOf_cons_iff.1 h with ⟨rfl, h2⟩
      exact pfxOf_cons_iff.2 ⟨rfl, ih h2⟩

/-- A prefix of a concatenation lies in the left part or crosses into the
right part after exhausting the left part. -/
theorem pfxOf_append_split {w a u : List Char} (h : w.isPrefixOf (a ++ u) = true) :
    w.isPrefixOf a = true ∨
      (a.length < w.length ∧ (w.drop a.length).isPrefixOf u = true) := by
  induction a generalizing w with
  | nil =>
    cases w with
    | nil => exact Or.inl rfl
    | cons x w => exact Or.inr ⟨by simp, h⟩
  | cons c a ih =>
    cases w with
    | nil => exact Or.inl rfl
    | cons x w =>
      rcases pfxOf_cons_iff.1 h with ⟨rfl, h2⟩
      rcases ih h2 with h3 | ⟨h4, h5⟩
      · exact Or.inl (pfxOf_cons_iff.2 ⟨rfl, h3⟩)
      · exact Or.inr ⟨by simpa using Nat.succ_lt_succ h4, by simpa using h5⟩

/-- Soundness of the first-occurrence split. -/
theorem splitFirst_sound {w s p q : List Char} (h : splitFirst w s = some (p, q)) :
    s = p ++ w ++ q := by
  induction s generalizing p q with
  | nil => simp [splitFirst] at h
  | cons c r ih =>
    rw [splitFirst] at h
    split at h
    · next hp =>
      simp only [Option.some_inj, Prod.mk.injEq] at h
      obtain ⟨hp1, hq1⟩ := h
      subst hp1; subst hq1
      simpa using (pfxOf_eq_append hp).symm
    · next hp =>
      cases hsp : splitFirst w r with
      | none => rw [hsp] at h; simp at h
      | some pq =>
        obtain ⟨p1, q1⟩ := pq
        rw [hsp] at h
        simp only [Option.some_inj, Prod.mk.injEq] at h
        obtain ⟨hp1, hq1⟩ := h
        subst hp1; subst hq1
        simpa using ih hsp

/-- The remainder of a successful split is strictly shorter. -/
theorem splitFirst_len {w s p q : List Char} (hw : w ≠ [])
    (h : splitFirst w s = some (p, q)) : q.length < s.length := by
  have hs := splitFirst_sound h
  have hwl : 0 < w.length := List.length_pos.2 hw
  rw [hs]
  simp only [List.length_append]
  omega

/-- Locating the first occurrence: scanning over characters different from the
word's first character finds the word exactly where it was planted. -/
theorem splitFirst_notHead {x : Char} {w : List Char} (hw : w.head? = some x)
    (a z : List Char) (ha : ∀ c ∈ a, c ≠ x) :
    splitFirst w (a ++ (w ++ z)) = some (a, z) := by
  induction a with
  | nil =>
    cases w with
    | nil => simp at hw
    | cons x0 w0 =>
      have hp : (x0 :: w0).isPrefixOf (x0 :: (w0 ++ z)) = true := pfxOf_self_append (x0 :: w0) z
      have hd : (x0 :: (w0 ++ z)).drop (x0 :: w0).length = z := List.drop_left (x0 :: w0) z
      show splitFirst (x0 :: w0) (x0 :: (w0 ++ z)) = some ([], z)
      rw [splitFirst, hp, hd]
      simp
  | cons c a ih =>
    have : (c :: a) ++ (w ++ z) = c :: (a ++ (w ++ z)) := rfl
    rw [this, splitFirst, not_pfxOf_of_head hw (ha c (List.mem_cons_self c a)) _, ih
      fun b hb => ha b (List.mem_cons_of_mem c hb)]
    simp

/-- A word whose first character never occurs does not occur. -/
theorem splitFirst_none {x : Char} {w : List Char} (hw : w.head? = some x)
    (a : List Char) (ha : ∀ c ∈ a, c ≠ x) : splitFirst w a = none := by
  induction a with
  | nil => rfl
  | cons c a ih =>
    rw [splitFirst, not_pfxOf_of_head hw (ha c (List.mem_cons_self c a)) _, ih
      fun b hb => ha b (List.mem_cons_of_mem c hb)]
    simp

/-- Unfolding the substring test on a cons cell. -/
theorem hasSub_cons (w : List Char) (c : Char) (r : List Char) :
    hasSub w (c :: r) = (w.isPrefixOf (c :: r) || hasSub w r) := rfl

/-- Splitting a negative substring test on a cons cell. -/
theorem hasSub_false_cons {w : List Char} {c : Char} {r : List Char}
    (h : hasSub w (c :: r) = false) :
    w.isPrefixOf (c :: r) = false ∧ hasSub w r = false := by
  rw [hasSub_cons] at h
  exact ⟨by cases hb : w.isPrefixOf (c :: r) <;> simp_all,
         by cases hb : hasSub w r <;> simp_all⟩

/-- A substring of the right part is a substring of a concatenation. -/
theorem hasSub_append_right (w a b : List Char) (h : hasSub w b = true) :
    hasSub w (a ++ b) = true := by
  induction a with
  | nil => simpa using h
  | cons c a ih =>
    rw [List.cons_append, hasSub_cons, ih]
    simp

/-- A substring of the left part is a substring of a concatenation. -/
theorem hasSub_ext_right {w a : List Char} (h : hasSub w a = true) (b : List Char) :
    hasSub w (a ++ b) = true := by
  induction a with
  | nil =>
    cases w with
    | nil =>
      cases b with
      | nil => exact h
      | cons c r =>
        rw [List.nil_append, hasSub_cons]
        simp [List.isPrefixOf]
    | cons x w0 => simp [hasSub, List.isEmpty] at h
  | cons c a ih =>
    rw [hasSub_cons] at h
    rw [List.cons_append, hasSub_cons]
    cases hp : (w.isPrefixOf (c :: a) : Bool) with
    | true =>
      have := pfxOf_append_ext hp b
      rw [List.cons_append] at this
      simp [this]
    | false =>
      rw [hp] at h
      simp only [Bool.false_or] at h
      simp [ih h]

/-- The planted word occurs. -/
theorem hasSub_self_append (w z : List Char) (hw : w ≠ []) :
    hasSub w (w ++ z) = true := by
  cases w with
  | nil => exact absurd rfl hw
  | cons x w0 =>
    rw [List.cons_append, hasSub_cons]
    have := pfxOf_self_append (x :: w0) z
    rw [List.cons_append] at this
    simp [this]

/-- No occurrence in a concatenation means none in the left part. -/
theorem hasSub_mono_left {w a b : List Char} (h : hasSub w (a ++ b) = false) :
    hasSub w a = false := by
  cases hs : hasSub w a with
  | false => rfl
  | true => rw [hasSub_ext_right hs b] at h; simp at h

/-- No occurrence in a concatenation means none in the right part. -/
theorem hasSub_mono_right {w a b : List Char} (h : hasSub w (a ++ b) = false) :
    hasSub w b = false := by
  cases hs : hasSub w b with
  | false => rfl
  | true => rw [hasSub_append_right w a b hs] at h; simp at h

/-- A two-character word does not occur in a concatenation when it occurs in
neither part and does not straddle the junction. -/
theorem hasSub2_app {x y : Char} {a b : List Char} (hA : hasSub [x, y] a = false)
    (hB : hasSub [x, y] b = false)
    (hbd : ¬(a.getLast? = some x ∧ b.head? = some y)) :
    hasSub [x, y] (a ++ b) = false := by
  induction a with
  | nil => simpa using hB
  | cons c a ih =>
    obtain ⟨hA1, hA2⟩ := hasSub_false_cons hA
    rw [List.cons_append, hasSub_cons]
    have hrec : hasSub [x, y] (a ++ b) = false := by
      apply ih hA2
      intro ⟨hl, hh⟩
      cases a with
      | nil => simp at hl
      | cons a0 a1 =>
        refine hbd ⟨?_, hh⟩
        rw [List.getLast?_cons_cons]
        exact hl
    rw [hrec]
    cases hp : ([x, y].isPrefixOf (c :: (a ++ b)) : Bool) with
    | false => simp
    | true =>
      exfalso
      obtain ⟨hxc, h2⟩ := pfxOf_cons_iff.1 hp
      cases a with
      | nil =>
        cases b with
        | nil => simp [List.isPrefixOf] at h2
        | cons b0 b1 =>
          rw [List.nil_append] at h2
          obtain ⟨hyb, _⟩ := pfxOf_cons_iff.1 h2
          exact hbd ⟨by simp [hxc], by simp [hyb]⟩
      | cons a0 a1 =>
        obtain ⟨hya, _⟩ := pfxOf_cons_iff.1 h2
        have htr : ([x, y].isPrefixOf (c :: a0 :: a1) : Bool) = true :=
          pfxOf_cons_iff.2 ⟨hxc, pfxOf_cons_iff.2 ⟨hya, by simp [List.isPrefixOf]⟩⟩
        rw [htr] at hA1
        simp at hA1

/-- The remainder returned by a token parse is no longer than the input. -/
theorem parseIdx_len {s a : List Char} {i : Nat} (h : parseIdx s = some (i, a)) :
    a.length ≤ s.length := by
  unfold parseIdx at h
  split at h
  · exact absurd h (by simp)
  · split at h
    · simp only [Option.some_inj, Prod.mk.injEq] at h
      obtain ⟨_, ha⟩ := h
      subst ha
      simp only [List.length_drop]
      omega
    · exact absurd h (by simp)

/-- The masking scanner ignores its fuel beyond the string length. -/
theorem maskGo_fuel (del : List Char) (mk : Nat → List Char) (hdel : del ≠ []) :
    ∀ (f g : Nat) (s : List Char) (xs : List (List Char)),
      s.length ≤ f → s.length ≤ g → maskGo del mk f s xs = maskGo del mk g s xs := by
  intro f
  induction f with
  | zero =>
    intro g s xs hf _
    have hs : s = [] := List.length_eq_zero.1 (Nat.le_zero.1 hf)
    subst hs
    cases g <;> rfl
  | succ f ih =>
    intro g s xs hf hg
    cases s with
    | nil => cases g <;> rfl
    | cons c r =>
      simp only [List.length_cons] at hf hg
      cases g with
      | zero => omega
      | succ g0 =>
        simp only [maskGo]
        cases hp : (del.isPrefixOf (c :: r) : Bool) with
        | false =>
          rw [if_neg (by simp), if_neg (by simp),
            ih g0 r xs (by omega) (by omega)]
        | true =>
          rw [if_pos rfl, if_pos rfl]
          cases hsp : splitFirst del ((c :: r).drop del.length) with
          | none =>
            simp only [hsp]
            rw [ih g0 r xs (by omega) (by omega)]
          | some pq =>
            obtain ⟨content, after⟩ := pq
            simp only [hsp]
            have hdl : 0 < del.length := List.length_pos.2 hdel
            have hal := splitFirst_len hdel hsp
            simp only [List.length_drop, List.length_cons] at hal
            rw [ih g0 after (xs ++ [del ++ content ++ del]) (by omega) (by omega)]

/-- The unmasking scanner ignores its fuel beyond the string length. -/
theorem unmaskGo_fuel (w : List Char) (xs : List (List Char)) (hw : w ≠ []) :
    ∀ (f g : Nat) (s : List Char),
      s.length ≤ f → s.length ≤ g → unmaskGo w xs f s = unmaskGo w xs g s := by
  intro f
  induction f with
  | zero =>
    intro g s hf _
    have hs : s = [] := List.length_eq_zero.1 (Nat.le_zero.1 hf)
    subst hs
    cases g <;> rfl
  | succ f ih =>
    intro g s hf hg
    cases s with
    | nil => cases g <;> rfl
    | cons c r =>
      simp only [List.length_cons] at hf hg
      cases g with
      | zero => omega
      | succ g0 =>
        simp only [unmaskGo]
        cases hp : (w.isPrefixOf (c :: r) : Bool) with
        | false =>
          rw [if_neg (by simp), if_neg (by simp),
            ih g0 r (by omega) (by omega)]
        | true =>
          rw [if_pos rfl, if_pos rfl]
          cases hpi : parseIdx ((c :: r).drop w.length) with
          | none =>
            simp only [hpi]
            rw [ih g0 r (by omega) (by omega)]
          | some ia =>
            obtain ⟨i, after⟩ := ia
            simp only [hpi]
            have hwl : 0 < w.length := List.length_pos.2 hw
            have hal := parseIdx_len hpi
            simp only [List.length_drop, List.length_cons] at hal
            rw [ih g0 after (by omega) (by omega)]

/-- Distinct characters have distinct digit-class membership. -/
theorem isDigit_ne {c : Char} (h : c.isDigit = true) {x : Char} (hx : x.isDigit = false) :
    c ≠ x := by
  intro he
  rw [he, hx] at h
  simp at h

/-- Every digit character produced is in the digit class. -/
theorem digitChar_isDigit (k : Nat) : (digitChar k).isDigit = true :=
  match k with
  | 0 => by decide
  | 1 => by decide
  | 2 => by decide
  | 3 => by decide
  | 4 => by decide
  | 5 => by decide
  | 6 => by decide
  | 7 => by decide
  | 8 => by decide
  | n + 9 => show ('9' : Char).isDigit = true by decide

/-- The decimal helper ignores its fuel beyond the number. -/
theorem natToDigitsF_fuel : ∀ f g n, n ≤ f → n ≤ g → natToDigitsF f n = natToDigitsF g n := by
  intro f
  induction f with
  | zero =>
    intro g n hf _
    have hn : n = 0 := by omega
    subst hn
    cases g with
    | zero => rfl
    | succ g0 => simp [natToDigitsF]
  | succ f ih =>
    intro g n hf hg
    by_cases h10 : n < 10
    · cases g with
      | zero =>
        have hn : n = 0 := by omega
        subst hn
        simp [natToDigitsF]
      | succ g0 => simp [natToDigitsF, h10]
    · cases g with
      | zero => omega
      | succ g0 =>
        simp only [natToDigitsF, if_neg h10]
        rw [ih g0 (n / 10) (by omega) (by omega)]

/-- The unfolding equation of the decimal representation. -/
theorem natToDigits_eq (n : Nat) :
    natToDigits n = if n < 10 then [digitChar n]
      else natToDigits (n / 10) ++ [digitChar (n % 10)] := by
  unfold natToDigits
  by_cases h10 : n < 10
  · rw [if_pos h10]
    cases n with
    | zero => simp [natToDigitsF]
    | succ m => simp [natToDigitsF, h10]
  · rw [if_neg h10]
    cases n with
    | zero => omega
    | succ m =>
      simp only [natToDigitsF, if_neg h10]
      rw [natToDigitsF_fuel m ((m + 1) / 10) ((m + 1) / 10) (by omega) (le_refl _)]

/-- A digit character's value inverts its construction. -/
theorem digitVal_digitChar {k : Nat} (h : k < 10) : digitVal (digitChar k) = k := by
  interval_cases k <;> decide

/-- Appending one digit multiplies the value by ten and adds the digit. -/
theorem digitsVal_append (l : List Char) (c : Char) :
    digitsVal (l ++ [c]) = 10 * digitsVal l + digitVal c := by
  simp [digitsVal, List.foldl_append]

/-- Reading back the decimal representation returns the number. -/
theorem digitsVal_natToDigits (n : Nat) : digitsVal (natToDigits n) = n := by
  induction n using Nat.strong_induction_on with
  | _ n ih =>
    rw [natToDigits_eq]
    by_cases h10 : n < 10
    · rw [if_pos h10]
      simp [digitsVal, digitVal_digitChar h10]
    · rw [if_neg h10, digitsVal_append,
        ih (n / 10) (Nat.div_lt_self (by omega) (by omega)),
        digitVal_digitChar (Nat.mod_lt n (by omega))]
      omega

/-- Every character of the decimal representation is a digit. -/
theorem natToDigits_digits (n : Nat) : ∀ c ∈ natToDigits n, c.isDigit = true := by
  induction n using Nat.strong_induction_on with
  | _ n ih =>
    rw [natToDigits_eq]
    by_cases h10 : n < 10
    · rw [if_pos h10]
      intro c hc
      simp at hc
      subst hc
      exact digitChar_isDigit n
    · rw [if_neg h10]
      intro c hc
      rcases List.mem_append.1 hc with h | h
      · exact ih (n / 10) (Nat.div_lt_self (by omega) (by omega)) c h
      · simp at h
        subst h
        exact digitChar_isDigit _

/-- The decimal representation is never empty. -/
theorem natToDigits_ne_nil (n : Nat) : natToDigits n ≠ [] := by
  rw [natToDigits_eq]
  split <;> simp

/-- A character avoided by a token: it is not in the word, not a digit and not
in the END marker. -/
theorem tok_avoid {v : List Char} {n : Nat} {x : Char} (hv : x ∉ v) (hx : x.isDigit = false)
    (he : x ∉ endW) : ∀ c ∈ v ++ natToDigits n ++ endW, c ≠ x := by
  intro c hc he2
  rw [he2] at hc
  rcases List.mem_append.1 hc with h | h
  · rcases List.mem_append.1 h with h2 | h2
    · exact hv h2
    · have hd := natToDigits_digits n x h2
      rw [hd] at hx
      simp at hx
  · exact he h

/-- A digit run stops the character-class take exactly at its end. -/
theorem takeWhile_append_stop (p : Char → Bool) (d : List Char) (c : Char) (z : List Char)
    (hd : ∀ ch ∈ d, p ch = true) (hc : p c = false) :
    (d ++ c :: z).takeWhile p = d := by
  induction d with
  | nil => simp [List.takeWhile_cons, hc]
  | cons a d ih =>
    rw [List.cons_append, List.takeWhile_cons, if_pos (hd a (List.mem_cons_self a d)),
      ih fun b hb => hd b (List.mem_cons_of_mem a hb)]

/-- Parsing the tail of a well-formed token succeeds with its index. -/
theorem parseIdx_spec (i : Nat) (u : List Char) :
    parseIdx (natToDigits i ++ (endW ++ u)) = some (i, u) := by
  have hend : endW ++ u = 'E' :: 'N' :: 'D' :: u := rfl
  have htw : (natToDigits i ++ (endW ++ u)).takeWhile Char.isDigit = natToDigits i := by
    rw [hend]
    exact takeWhile_append_stop _ _ _ _ (natToDigits_digits i) (by decide)
  have hdr : (natToDigits i ++ (endW ++ u)).drop (natToDigits i).length = endW ++ u :=
    List.drop_left _ _
  unfold parseIdx
  rw [htw, hdr, if_neg (by simp [natToDigits_ne_nil i]),
    if_pos (pfxOf_self_append endW u), digitsVal_natToDigits]
  rw [hend]
  rfl

/-- The masking scanner copies a run of characters that never start its
delimiter. -/
theorem maskGo_pass {del : List Char} {mk : Nat → List Char} {x : Char}
    (hx : del.head? = some x) (a u : List Char) (xs : List (List Char))
    (ha : ∀ c ∈ a, c ≠ x) :
    maskGo del mk (a ++ u).length (a ++ u) xs
      = (a ++ (maskGo del mk u.length u xs).1, (maskGo del mk u.length u xs).2) := by
  induction a with
  | nil => simp
  | cons c a ih =>
    have hni := ih fun b hb => ha b (List.mem_cons_of_mem c hb)
    have hfalse := not_pfxOf_of_head hx (ha c (List.mem_cons_self c a)) (a ++ u)
    rw [List.cons_append]
    show maskGo del mk ((a ++ u).length + 1) (c :: (a ++ u)) xs = _
    simp only [maskGo]
    rw [if_neg (by simp [hfalse]), hni]
    simp

/-- The masking scanner at a planted span: the span is pushed, a token is
emitted, and scanning resumes after the closing delimiter. -/
theorem maskGo_action {del : List Char} {mk : Nat → List Char} {x : Char}
    (hdel : del ≠ []) (hx : del.head? = some x) (content u : List Char)
    (xs : List (List Char)) (hc : ∀ c ∈ content, c ≠ x) :
    maskGo del mk (del ++ (content ++ (del ++ u))).length (del ++ (content ++ (del ++ u))) xs
      = (mk xs.length ++ (maskGo del mk u.length u (xs ++ [del ++ content ++ del])).1,
         (maskGo del mk u.length u (xs ++ [del ++ content ++ del])).2) := by
  cases del with
  | nil => exact absurd rfl hdel
  | cons d0 dr =>
    have hp : (d0 :: dr).isPrefixOf (d0 :: (dr ++ (content ++ ((d0 :: dr) ++ u)))) = true :=
      pfxOf_self_append (d0 :: dr) (content ++ ((d0 :: dr) ++ u))
    have hd : (d0 :: (dr ++ (content ++ ((d0 :: dr) ++ u)))).drop (d0 :: dr).length
        = content ++ ((d0 :: dr) ++ u) := List.drop_left (d0 :: dr) _
    have hsp : splitFirst (d0 :: dr) (content ++ ((d0 :: dr) ++ u)) = some (content, u) :=
      splitFirst_notHead hx content u hc
    show maskGo (d0 :: dr) mk ((dr ++ (content ++ ((d0 :: dr) ++ u))).length + 1)
        (d0 :: (dr ++ (content ++ ((d0 :: dr) ++ u)))) xs = _
    simp only [maskGo]
    rw [if_pos hp, hd]
    simp only [hsp]
    rw [maskGo_fuel (d0 :: dr) mk (by simp) (dr ++ (content ++ ((d0 :: dr) ++ u))).length
      u.length u (xs ++ [(d0 :: dr) ++ content ++ (d0 :: dr)]) (by simp; omega) (le_refl _)]

/-- The display-masking scanner copies an inline span: its opener is not a
display opener because the nonempty dollar-free content follows, and its
closer is not one because what follows does not start with a dollar. -/
theorem maskD_skip_inl (c0 u : List Char) (xs : List (List Char))
    (hc : ∀ ch ∈ c0, ch ≠ '$') (hne : c0 ≠ []) (hu : u.head? ≠ some '$') :
    maskGo dd tokD ('$' :: (c0 ++ '$' :: u)).length ('$' :: (c0 ++ '$' :: u)) xs
      = ('$' :: (c0 ++ '$' :: (maskGo dd tokD u.length u xs).1),
         (maskGo dd tokD u.length u xs).2) := by
  have hp1 : dd.isPrefixOf ('$' :: (c0 ++ '$' :: u)) = false := by
    cases c0 with
    | nil => exact absurd rfl hne
    | cons e0 er =>
      cases hb : (dd.isPrefixOf ('$' :: ((e0 :: er) ++ '$' :: u)) : Bool) with
      | false => rfl
      | true =>
        exfalso
        have hb2 : ('$' :: '$' :: ([] : List Char)).isPrefixOf ('$' :: e0 :: (er ++ '$' :: u))
            = true := hb
        obtain ⟨_, h2⟩ := pfxOf_cons_iff.1 hb2
        obtain ⟨he, _⟩ := pfxOf_cons_iff.1 h2
        exact hc e0 (List.mem_cons_self _ _) he.symm
  have hp2 : dd.isPrefixOf ('$' :: u) = false := by
    cases hb : (dd.isPrefixOf ('$' :: u) : Bool) with
    | false => rfl
    | true =>
      exfalso
      have hb2 : ('$' :: '$' :: ([] : List Char)).isPrefixOf ('$' :: u) = true := hb
      obtain ⟨_, h2⟩ := pfxOf_cons_iff.1 hb2
      cases u with
      | nil => simp [List.isPrefixOf] at h2
      | cons u0 ur =>
        obtain ⟨he, _⟩ := pfxOf_cons_iff.1 h2
        exact hu (by rw [← he]; rfl)
  show maskGo dd tokD ((c0 ++ '$' :: u).length + 1) ('$' :: (c0 ++ '$' :: u)) xs = _
  simp only [maskGo]
  rw [if_neg (by simp [hp1])]
  have hpass := @maskGo_pass dd tokD '$' rfl c0 ('$' :: u) xs hc
  rw [hpass]
  show ('$' :: (c0 ++ (maskGo dd tokD (u.length + 1) ('$' :: u) xs).1), _) = _
  simp only [maskGo]
  rw [if_neg (by simp [hp2])]

/-- The unmasking scanner copies a run whose characters never equal the
word's first character. -/
theorem unmask_pass_noHead {w : List Char} {x : Char} (hw : w.head? = some x)
    (xs : List (List Char)) (a u : List Char) (ha : ∀ c ∈ a, c ≠ x) :
    unmaskGo w xs (a ++ u).length (a ++ u) = a ++ unmaskGo w xs u.length u := by
  induction a with
  | nil => simp
  | cons c a ih =>
    have hni := ih fun b hb => ha b (List.mem_cons_of_mem c hb)
    have hfalse := not_pfxOf_of_head hw (ha c (List.mem_cons_self c a)) (a ++ u)
    rw [List.cons_append]
    show unmaskGo w xs ((a ++ u).length + 1) (c :: (a ++ u)) = _
    simp only [unmaskGo]
    rw [if_neg (by simp [hfalse]), hni]
    simp

/-- The unmasking scanner copies a run that does not contain the word, with
what follows unable to complete a straddling occurrence. -/
theorem unmask_pass_sub {w : List Char} {x : Char} (hw : w.head? = some x)
    (xs : List (List Char)) (a u : List Char) (hsub : hasSub w a = false)
    (hbd : ∀ k, 0 < k → k < w.length → (w.drop k).head? ≠ u.head?) :
    unmaskGo w xs (a ++ u).length (a ++ u) = a ++ unmaskGo w xs u.length u := by
  induction a with
  | nil => simp
  | cons c a ih =>
    obtain ⟨h1, h2⟩ := hasSub_false_cons hsub
    have hfalse : w.isPrefixOf (c :: (a ++ u)) = false := by
      cases hb : (w.isPrefixOf (c :: (a ++ u)) : Bool) with
      | false => rfl
      | true =>
        exfalso
        have hb2 : w.isPrefixOf ((c :: a) ++ u) = true := by
          rw [List.cons_append]
          exact hb
        rcases pfxOf_append_split hb2 with h3 | ⟨h4, h5⟩
        · rw [h3] at h1
          simp at h1
        · have hk1 : 0 < (c :: a).length := by simp
          have hbd2 := hbd (c :: a).length hk1 h4
          cases hw2 : w.drop (c :: a).length with
          | nil =>
            have hlen := congrArg List.length hw2
            simp only [List.length_drop, List.length_nil] at hlen
            omega
          | cons wc wr =>
            rw [hw2] at h5
            cases u with
            | nil => simp [List.isPrefixOf] at h5
            | cons u0 ur =>
              obtain ⟨he, _⟩ := pfxOf_cons_iff.1 h5
              rw [hw2] at hbd2
              exact hbd2 (by rw [he]; rfl)
    rw [List.cons_append]
    show unmaskGo w xs ((a ++ u).length + 1) (c :: (a ++ u)) = _
    simp only [unmaskGo]
    rw [if_neg (by simp [hfalse]), ih h2]
    simp

/-- The unmasking scanner at a planted token: the indexed entry is inserted
and scanning resumes after the token. -/
theorem unmask_action {w : List Char} (hw : w ≠ []) (xs : List (List Char)) (i : Nat)
    (u : List Char) :
    unmaskGo w xs (w ++ (natToDigits i ++ (endW ++ u))).length
        (w ++ (natToDigits i ++ (endW ++ u)))
      = xs.getD i undefStr ++ unmaskGo w xs u.length u := by
  cases w with
  | nil => exact absurd rfl hw
  | cons w0 wr =>
    have hp : (w0 :: wr).isPrefixOf (w0 :: (wr ++ (natToDigits i ++ (endW ++ u)))) = true :=
      pfxOf_self_append (w0 :: wr) _
    have hd : (w0 :: (wr ++ (natToDigits i ++ (endW ++ u)))).drop (w0 :: wr).length
        = natToDigits i ++ (endW ++ u) := List.drop_left (w0 :: wr) _
    show unmaskGo (w0 :: wr) xs ((wr ++ (natToDigits i ++ (endW ++ u))).length + 1)
        (w0 :: (wr ++ (natToDigits i ++ (endW ++ u)))) = _
    simp only [unmaskGo]
    rw [if_pos hp, hd]
    simp only [parseIdx_spec i u]
    rw [unmaskGo_fuel (w0 :: wr) xs (by simp) (wr ++ (natToDigits i ++ (endW ++ u))).length
      u.length u (by simp [endW]; omega) (le_refl _)]

/-- Elimination for the dollar-freedom test. -/
theorem noDollar_mem {t : List Char} (h : noDollar t = true) : ∀ c ∈ t, c ≠ '$' := by
  intro c hc
  have := List.all_eq_true.1 h c hc
  simpa using this

/-- Elimination for the backtick-freedom test. -/
theorem noTick_mem {t : List Char} (h : noTick t = true) : ∀ c ∈ t, c ≠ '`' := by
  intro c hc
  have := List.all_eq_true.1 h c hc
  simpa using this

/-- A plain chunk is dollar-free. -/
theorem chunkOk_dollar {t : List Char} (h : chunkOk t = true) : ∀ c ∈ t, c ≠ '$' := by
  simp only [chunkOk, Bool.and_eq_true] at h
  exact noDollar_mem h.1.1.1

/-- A plain chunk is backtick-free. -/
theorem chunkOk_tick {t : List Char} (h : chunkOk t = true) : ∀ c ∈ t, c ≠ '`' := by
  simp only [chunkOk, Bool.and_eq_true] at h
  exact noTick_mem h.1.1.2

/-- A plain chunk does not contain the display token word. -/
theorem chunkOk_wordB {t : List Char} (h : chunkOk t = true) : hasSub wordB t = false := by
  simp only [chunkOk, Bool.and_eq_true, Bool.not_eq_true'] at h
  exact h.1.2

/-- A plain chunk does not contain the inline token word. -/
theorem chunkOk_wordI {t : List Char} (h : chunkOk t = true) : hasSub wordI t = false := by
  simp only [chunkOk, Bool.and_eq_true, Bool.not_eq_true'] at h
  exact h.2

/-- Unfolding well-formedness into its member and separation parts. -/
theorem wf_parts {l : List Seg} (h : wfSegs l = true) :
    (∀ s ∈ l, segOk s = true) ∧ sepOk l = true := by
  simp only [wfSegs, Bool.and_eq_true, List.all_eq_true] at h
  exact h

/-- Separation restricted to a tail. -/
theorem sepOk_tail {s : Seg} {r : List Seg} (h : sepOk (s :: r) = true) : sepOk r = true := by
  cases s with
  | txt t =>
    cases r with
    | nil => rfl
    | cons s2 r2 => cases s2 <;> simp_all [sepOk]
  | disp c => simpa [sepOk] using h
  | inl c =>
    cases r with
    | nil => rfl
    | cons s2 r2 =>
      cases s2 with
      | txt t =>
        simp only [sepOk, Bool.and_eq_true] at h
        exact h.2
      | disp _ => simp [sepOk] at h
      | inl _ => simp [sepOk] at h

/-- Well-formedness of a tail, with the head's own condition. -/
theorem wf_cons {s : Seg} {r : List Seg} (h : wfSegs (s :: r) = true) :
    segOk s = true ∧ wfSegs r = true := by
  obtain ⟨hall, hsep⟩ := wf_parts h
  refine ⟨hall s (List.mem_cons_self s r), ?_⟩
  simp only [wfSegs, Bool.and_eq_true, List.all_eq_true]
  exact ⟨fun s2 hs2 => hall s2 (List.mem_cons_of_mem _ hs2), sepOk_tail hsep⟩

/-- After an inline segment the rendered rest never starts with a dollar. -/
theorem sepOk_inl_head {c0 : List Char} {r : List Seg} (hsep : sepOk (Seg.inl c0 :: r) = true)
    (hall : ∀ s ∈ r, segOk s = true) : (render r).head? ≠ some '$' := by
  cases r with
  | nil => simp [render]
  | cons s2 r2 =>
    cases s2 with
    | txt t =>
      simp only [sepOk, Bool.and_eq_true] at hsep
      obtain ⟨h1, _⟩ := hsep
      cases t with
      | nil => simp at h1
      | cons t0 tr =>
        have hok := hall (Seg.txt (t0 :: tr)) (List.mem_cons_self _ _)
        have hnd := chunkOk_dollar hok t0 (List.mem_cons_self t0 tr)
        show (((t0 :: tr) ++ render r2).head?) ≠ some '$'
        rw [List.cons_append, List.head?_cons]
        intro he
        exact hnd (Option.some_inj.1 he)
    | disp _ => simp [sepOk] at hsep
    | inl _ => simp [sepOk] at hsep

/-- No character of a display token is a dollar sign. -/
theorem tokD_noDollar (n : Nat) : ∀ c ∈ tokD n, c ≠ '$' :=
  tok_avoid (by decide) (by decide) (by decide)

/-- No character of an inline token is a dollar sign. -/
theorem tokI_noDollar (n : Nat) : ∀ c ∈ tokI n, c ≠ '$' :=
  tok_avoid (by decide) (by decide) (by decide)

/-- The boundary characters of the display token word rule out a straddling
occurrence when what follows starts with the letter M, a dollar, or nothing. -/
theorem wordB_bd {k : Nat} (hk1 : 0 < k) (hk2 : k < wordB.length) {o : Option Char}
    (ho : o = some 'M' ∨ o = some '$' ∨ o = none) : (wordB.drop k).head? ≠ o := by
  have h9 : k < 9 := by simpa [wordB] using hk2
  rcases ho with rfl | rfl | rfl <;> (interval_cases k <;> decide)

/-- The same boundary rule for the inline token word. -/
theorem wordI_bd {k : Nat} (hk1 : 0 < k) (hk2 : k < wordI.length) {o : Option Char}
    (ho : o = some 'M' ∨ o = some '$' ∨ o = none) : (wordI.drop k).head? ≠ o := by
  have h10 : k < 10 := by simpa [wordI] using hk2
  rcases ho with rfl | rfl | rfl <;> (interval_cases k <;> decide)

/-- Every character after the first of an inline token differs from M. -/
theorem tokI_tail_noM (i : Nat) :
    ∀ c ∈ ('A' :: 'T' :: 'H' :: 'I' :: 'N' :: 'L' :: 'I' :: 'N' :: 'E'
      :: (natToDigits i ++ endW)), c ≠ 'M' := by
  intro c hc
  simp only [List.mem_cons] at hc
  rcases hc with rfl | rfl | rfl | rfl | rfl | rfl | rfl | rfl | rfl | h
  · decide
  · decide
  · decide
  · decide
  · decide
  · decide
  · decide
  · decide
  · decide
  · rcases List.mem_append.1 h with h2 | h2
    · exact isDigit_ne (natToDigits_digits i c h2) (by decide)
    · intro he
      rw [he] at h2
      simp [endW] at h2

/-- One negative step of the unmasking scanner. -/
theorem unmaskGo_step_neg {w : List Char} {xs : List (List Char)} {f : Nat} {c : Char}
    {r : List Char} (h : w.isPrefixOf (c :: r) = false) :
    unmaskGo w xs (f + 1) (c :: r) = c :: unmaskGo w xs f r := by
  simp only [unmaskGo]
  rw [if_neg (by simp [h])]

/-- The display-unmasking scanner copies an inline token: the words differ at
their fifth character, and no later character of the token is an M. -/
theorem unmaskB_skip_tokI (xs : List (List Char)) (i : Nat) (u : List Char) :
    unmaskGo wordB xs (tokI i ++ u).length (tokI i ++ u)
      = tokI i ++ unmaskGo wordB xs u.length u := by
  have hshape : tokI i ++ u
      = 'M' :: (('A' :: 'T' :: 'H' :: 'I' :: 'N' :: 'L' :: 'I' :: 'N' :: 'E'
          :: (natToDigits i ++ endW)) ++ u) := by
    simp [tokI, wordI]
  have htrig : wordB.isPrefixOf ('M' :: (('A' :: 'T' :: 'H' :: 'I' :: 'N' :: 'L' :: 'I'
      :: 'N' :: 'E' :: (natToDigits i ++ endW)) ++ u)) = false := by
    show (['M', 'A', 'T', 'H', 'B', 'L', 'O', 'C', 'K'] : List Char).isPrefixOf
      ('M' :: 'A' :: 'T' :: 'H' :: 'I' :: (('N' :: 'L' :: 'I' :: 'N' :: 'E'
        :: (natToDigits i ++ endW)) ++ u)) = false
    simp [List.isPrefixOf]
  rw [hshape]
  show unmaskGo wordB xs ((('A' :: 'T' :: 'H' :: 'I' :: 'N' :: 'L' :: 'I' :: 'N' :: 'E'
      :: (natToDigits i ++ endW)) ++ u).length + 1) _ = _
  rw [unmaskGo_step_neg htrig,
    unmask_pass_noHead (w := wordB) (x := 'M') rfl xs _ u (tokI_tail_noM i)]
  simp [tokI, wordI]

/-- Step A: the display-masking pass over a well-separated text replaces each
display span, in order, by the display token carrying its index in the shared
list, pushes exactly the display spans, and copies everything else. -/
theorem maskD_render : ∀ (segs : List Seg) (xs : List (List Char)), wfSegs segs = true →
    maskDisplay (render segs) xs = (mrD segs xs.length, xs ++ dspans segs) := by
  intro segs
  induction segs with
  | nil =>
    intro xs _
    simp [maskDisplay, render, maskGo, mrD, dspans]
  | cons s r ih =>
    intro xs h
    obtain ⟨hok, hwf⟩ := wf_cons h
    cases s with
    | txt t =>
      have hnd := chunkOk_dollar hok
      show maskGo dd tokD (t ++ render r).length (t ++ render r) xs = _
      rw [@maskGo_pass dd tokD '$' rfl t (render r) xs hnd]
      have hr := ih xs hwf
      unfold maskDisplay at hr
      rw [hr]
      simp [mrD, dspans]
    | disp c =>
      have hnd := chunkOk_dollar hok
      have hsh : render (Seg.disp c :: r) = dd ++ (c ++ (dd ++ render r)) := by
        simp [render, renderSeg]
      rw [hsh]
      unfold maskDisplay
      rw [@maskGo_action dd tokD '$' (by simp [dd]) rfl c
        (render r) xs hnd]
      have hr := ih (xs ++ [dd ++ c ++ dd]) hwf
      unfold maskDisplay at hr
      rw [hr]
      simp [mrD, dspans]
    | inl c =>
      simp only [segOk, Bool.and_eq_true, Bool.not_eq_true'] at hok
      obtain ⟨hne0, hcok⟩ := hok
      have hne : c ≠ [] := by simpa [List.isEmpty_iff] using hne0
      have hnd := chunkOk_dollar hcok
      have hu := sepOk_inl_head (wf_parts h).2 (wf_parts hwf).1
      have hsh : render (Seg.inl c :: r) = '$' :: (c ++ '$' :: render r) := by
        simp [render, renderSeg, sd]
      rw [hsh]
      unfold maskDisplay
      rw [maskD_skip_inl c (render r) xs hnd hne hu]
      have hr := ih xs hwf
      unfold maskDisplay at hr
      rw [hr]
      simp [mrD, dspans, sd]

/-- After a plain segment, separation forces a math segment or the end. -/
theorem sepOk_txt_next {t : List Char} {r : List Seg} (h : sepOk (Seg.txt t :: r) = true) :
    r = [] ∨ (∃ c rr, r = Seg.disp c :: rr) ∨ (∃ c rr, r = Seg.inl c :: rr) := by
  cases r with
  | nil => exact Or.inl rfl
  | cons s2 rr =>
    cases s2 with
    | txt t2 => simp [sepOk] at h
    | disp c => exact Or.inr (Or.inl ⟨c, rr, rfl⟩)
    | inl c => exact Or.inr (Or.inr ⟨c, rr, rfl⟩)

/-- The fully masked rest of a math-or-empty segment list starts with an M or
is empty. -/
theorem mr2_head_math {r : List Seg} {d i : Nat}
    (hr : r = [] ∨ (∃ c rr, r = Seg.disp c :: rr) ∨ (∃ c rr, r = Seg.inl c :: rr)) :
    (mr2 r d i).head? = some 'M' ∨ (mr2 r d i).head? = none := by
  rcases hr with rfl | ⟨c, rr, rfl⟩ | ⟨c, rr, rfl⟩
  · exact Or.inr rfl
  · exact Or.inl (by simp [mr2, tokD, wordB])
  · exact Or.inl (by simp [mr2, tokI, wordI])

/-- The display-restored rest of a math-or-empty segment list starts with a
dollar, an M, or is empty. -/
theorem ur1_head_math {r : List Seg} {i : Nat}
    (hr : r = [] ∨ (∃ c rr, r = Seg.disp c :: rr) ∨ (∃ c rr, r = Seg.inl c :: rr)) :
    (ur1 r i).head? = some '$' ∨ (ur1 r i).head? = some 'M' ∨ (ur1 r i).head? = none := by
  rcases hr with rfl | ⟨c, rr, rfl⟩ | ⟨c, rr, rfl⟩
  · exact Or.inr (Or.inr rfl)
  · exact Or.inl (by simp [ur1, dd])
  · exact Or.inr (Or.inl (by simp [ur1, tokI, wordI]))

/-- Step B: the inline-masking pass over the display-masked text replaces each
inline span, in order, by an inline token carrying its index in the shared
list (continuing after the display spans already pushed), pushes exactly the
inline spans, and copies plain chunks and display tokens. -/
theorem maskI_mrD : ∀ (segs : List Seg) (n : Nat) (xs : List (List Char)),
    wfSegs segs = true →
    maskInline (mrD segs n) xs = (mr2 segs n xs.length, xs ++ ispans segs) := by
  intro segs
  induction segs with
  | nil =>
    intro n xs _
    simp [maskInline, mrD, maskGo, mr2, ispans]
  | cons s r ih =>
    intro n xs h
    obtain ⟨hok, hwf⟩ := wf_cons h
    cases s with
    | txt t =>
      have hnd := chunkOk_dollar hok
      show maskGo sd tokI (t ++ mrD r n).length (t ++ mrD r n) xs = _
      rw [@maskGo_pass sd tokI '$' rfl t (mrD r n) xs hnd]
      have hr := ih n xs hwf
      unfold maskInline at hr
      rw [hr]
      simp [mr2, ispans]
    | disp c =>
      show maskGo sd tokI (tokD n ++ mrD r (n + 1)).length (tokD n ++ mrD r (n + 1)) xs = _
      rw [@maskGo_pass sd tokI '$' rfl (tokD n) (mrD r (n + 1)) xs
        (tokD_noDollar n)]
      have hr := ih (n + 1) xs hwf
      unfold maskInline at hr
      rw [hr]
      simp [mr2, ispans]
    | inl c =>
      simp only [segOk, Bool.and_eq_true] at hok
      obtain ⟨_, hcok⟩ := hok
      have hnd := chunkOk_dollar hcok
      have hsh : mrD (Seg.inl c :: r) n = sd ++ (c ++ (sd ++ mrD r n)) := by
        simp [mrD, sd]
      rw [hsh]
      unfold maskInline
      rw [@maskGo_action sd tokI '$' (by simp [sd]) rfl c
        (mrD r n) xs hnd]
      have hr := ih n (xs ++ [sd ++ c ++ sd]) hwf
      unfold maskInline at hr
      rw [hr]
      simp [mr2, ispans]

/-- No character of the display delimiter is an M. -/
theorem dd_noM : ∀ ch ∈ dd, ch ≠ 'M' := by decide

/-- Step C: the display-unmasking pass over the fully masked text restores
each display span from the shared list and copies plain chunks and inline
tokens, the latter because the two token words differ. -/
theorem unmaskB_mr2 : ∀ (segs : List Seg) (d i : Nat) (xs : List (List Char)),
    wfSegs segs = true →
    (∀ j sp, (dspans segs)[j]? = some sp → xs.getD (d + j) undefStr = sp) →
    unmask wordB xs (mr2 segs d i) = ur1 segs i := by
  intro segs
  induction segs with
  | nil =>
    intro d i xs _ _
    simp [unmask, mr2, unmaskGo, ur1]
  | cons s r ih =>
    intro d i xs h hget
    obtain ⟨hok, hwf⟩ := wf_cons h
    cases s with
    | txt t =>
      have hsubB := chunkOk_wordB hok
      have hnext := sepOk_txt_next (wf_parts h).2
      have hhead := mr2_head_math (r := r) (d := d) (i := i) hnext
      show unmaskGo wordB xs (t ++ mr2 r d i).length (t ++ mr2 r d i) = _
      rw [unmask_pass_sub (w := wordB) (x := 'M') rfl xs t (mr2 r d i) hsubB
        (fun k hk1 hk2 => by
          rcases hhead with hh | hh <;> rw [hh]
          · exact wordB_bd hk1 hk2 (Or.inl rfl)
          · exact wordB_bd hk1 hk2 (Or.inr (Or.inr rfl)))]
      have hr := ih d i xs hwf hget
      unfold unmask at hr
      rw [hr]
      simp [ur1]
    | disp c =>
      have hsh : mr2 (Seg.disp c :: r) d i
          = wordB ++ (natToDigits d ++ (endW ++ mr2 r (d + 1) i)) := by
        simp [mr2, tokD]
      unfold unmask
      rw [hsh, unmask_action (w := wordB) (by simp [wordB]) xs d (mr2 r (d + 1) i)]
      have hsp := hget 0 (dd ++ c ++ dd) (by simp [dspans])
      have hsp2 : xs.getD d undefStr = dd ++ c ++ dd := by simpa using hsp
      rw [hsp2]
      have hget2 : ∀ j sp, (dspans r)[j]? = some sp → xs.getD (d + 1 + j) undefStr = sp := by
        intro j sp hj
        have hres := hget (j + 1) sp (by simpa [dspans] using hj)
        rwa [show d + (j + 1) = d + 1 + j from by omega] at hres
      have hr := ih (d + 1) i xs hwf hget2
      unfold unmask at hr
      rw [hr]
      simp [ur1]
    | inl c =>
      have hsh : mr2 (Seg.inl c :: r) d i = tokI i ++ mr2 r d (i + 1) := by
        simp [mr2]
      unfold unmask
      rw [hsh, unmaskB_skip_tokI xs i (mr2 r d (i + 1))]
      have hr := ih d (i + 1) xs hwf hget
      unfold unmask at hr
      rw [hr]
      simp [ur1]

/-- Step D: the inline-unmasking pass over the display-restored text restores
each inline span from the shared list and copies plain chunks and the
restored display spans, recovering the original text. -/
theorem unmaskI_ur1 : ∀ (segs : List Seg) (i : Nat) (xs : List (List Char)),
    wfSegs segs = true →
    (∀ j sp, (ispans segs)[j]? = some sp → xs.getD (i + j) undefStr = sp) →
    unmask wordI xs (ur1 segs i) = render segs := by
  intro segs
  induction segs with
  | nil =>
    intro i xs _ _
    simp [unmask, ur1, unmaskGo, render]
  | cons s r ih =>
    intro i xs h hget
    obtain ⟨hok, hwf⟩ := wf_cons h
    cases s with
    | txt t =>
      have hsubI := chunkOk_wordI hok
      have hnext := sepOk_txt_next (wf_parts h).2
      have hhead := ur1_head_math (r := r) (i := i) hnext
      show unmaskGo wordI xs (t ++ ur1 r i).length (t ++ ur1 r i) = _
      rw [unmask_pass_sub (w := wordI) (x := 'M') rfl xs t (ur1 r i) hsubI
        (fun k hk1 hk2 => by
          rcases hhead with hh | hh | hh <;> rw [hh]
          · exact wordI_bd hk1 hk2 (Or.inr (Or.inl rfl))
          · exact wordI_bd hk1 hk2 (Or.inl rfl)
          · exact wordI_bd hk1 hk2 (Or.inr (Or.inr rfl)))]
      have hr := ih i xs hwf hget
      unfold unmask at hr
      rw [hr]
      simp [render, renderSeg]
    | disp c =>
      have hsubI := chunkOk_wordI hok
      have hsh : ur1 (Seg.disp c :: r) i = dd ++ (c ++ (dd ++ ur1 r i)) := by
        simp [ur1]
      unfold unmask
      rw [hsh]
      rw [unmask_pass_noHead (w := wordI) (x := 'M') rfl xs dd (c ++ (dd ++ ur1 r i)) dd_noM]
      rw [unmask_pass_sub (w := wordI) (x := 'M') rfl xs c (dd ++ ur1 r i) hsubI
        (fun k hk1 hk2 => by
          have hdh : (dd ++ ur1 r i).head? = some '$' := by simp [dd]
          rw [hdh]
          exact wordI_bd hk1 hk2 (Or.inr (Or.inl rfl)))]
      rw [unmask_pass_noHead (w := wordI) (x := 'M') rfl xs dd (ur1 r i) dd_noM]
      have hr := ih i xs hwf hget
      unfold unmask at hr
      rw [hr]
      simp [render, renderSeg]
    | inl c =>
      have hsh : ur1 (Seg.inl c :: r) i
          = wordI ++ (natToDigits i ++ (endW ++ ur1 r (i + 1))) := by
        simp [ur1, tokI]
      unfold unmask
      rw [hsh, unmask_action (w := wordI) (by simp [wordI]) xs i (ur1 r (i + 1))]
      have hsp := hget 0 (sd ++ c ++ sd) (by simp [ispans])
      have hsp2 : xs.getD i undefStr = sd ++ c ++ sd := by simpa using hsp
      rw [hsp2]
      have hget2 : ∀ j sp, (ispans r)[j]? = some sp → xs.getD (i + 1 + j) undefStr = sp := by
        intro j sp hj
        have hres := hget (j + 1) sp (by simpa [ispans] using hj)
        rwa [show i + (j + 1) = i + 1 + j from by omega] at hres
      have hr := ih (i + 1) xs hwf hget2
      unfold unmask at hr
      rw [hr]
      simp [render, renderSeg, sd]

/-- A word starting with a character absent from the string does not occur. -/
theorem hasSub_noHead {x : Char} (w : List Char) {s : List Char}
    (hs : ∀ c ∈ s, c ≠ x) : hasSub (x :: w) s = false := by
  induction s with
  | nil => rfl
  | cons c r ih =>
    rw [hasSub_cons, not_pfxOf_of_head (w := x :: w) rfl (hs c (List.mem_cons_self c r)) r,
      ih fun b hb => hs b (List.mem_cons_of_mem c hb)]
    rfl

/-- The fence scanner is the identity on a string without the fence marker. -/
theorem fenceGo_id (tags : List (List Char)) : ∀ (f : Nat) (s : List Char),
    hasSub ticks s = false → fenceGo tags f s = s := by
  intro f
  induction f with
  | zero => intro s _; rfl
  | succ f ih =>
    intro s hs
    cases s with
    | nil => rfl
    | cons c r =>
      obtain ⟨h1, h2⟩ := hasSub_false_cons hs
      simp only [fenceGo]
      rw [if_neg (by simp [h1]), ih r h2]

/-- The backtick-dollar scanner is the identity on a string without a
backtick-dollar pair. -/
theorem tickGo_id (del : List Char) (hd : del.head? = some '$') : ∀ (f : Nat) (s : List Char),
    hasSub ['`', '$'] s = false → tickGo del f s = s := by
  intro f
  induction f with
  | zero => intro s _; rfl
  | succ f ih =>
    intro s hs
    cases s with
    | nil => rfl
    | cons c r =>
      obtain ⟨h1, h2⟩ := hasSub_false_cons hs
      have htr : ('`' :: del).isPrefixOf (c :: r) = false := by
        cases del with
        | nil => simp at hd
        | cons d0 dr =>
          have hd0 : d0 = '$' := by simpa using hd
          subst hd0
          cases hb : (('`' :: '$' :: dr).isPrefixOf (c :: r) : Bool) with
          | false => rfl
          | true =>
            exfalso
            have h3 : (['`', '$'] : List Char).isPrefixOf (c :: r) = true := by
              obtain ⟨hc1, h4⟩ := pfxOf_cons_iff.1 hb
              cases r with
              | nil => simp [List.isPrefixOf] at h4
              | cons r0 rr =>
                obtain ⟨hc2, _⟩ := pfxOf_cons_iff.1 h4
                exact pfxOf_cons_iff.2 ⟨hc1, pfxOf_cons_iff.2 ⟨hc2, by simp [List.isPrefixOf]⟩⟩
            rw [h3] at h1
            simp at h1
      simp only [tickGo]
      rw [if_neg (by simp [htr]), ih r h2]

/-- A case-insensitive latex-fence trigger starts with the fence marker. -/
theorem ciPfx_latex_ticks {s : List Char} (h : ciPfx ticksLatex s = true) :
    ticks.isPrefixOf s = true := by
  have hlow : ('`'.isLower : Bool) = false := by decide
  cases s with
  | nil => simp [ciPfx, ticksLatex] at h
  | cons a s1 =>
    cases s1 with
    | nil => simp [ciPfx, ticksLatex, hlow] at h
    | cons b s2 =>
      cases s2 with
      | nil => simp [ciPfx, ticksLatex, hlow] at h
      | cons c s3 =>
        simp only [ticksLatex, ciPfx, hlow, Bool.false_and, Bool.or_false,
          Bool.and_eq_true, decide_eq_true_eq] at h
        obtain ⟨ha, hb, hc, _⟩ := h
        exact pfxOf_cons_iff.2 ⟨ha.symm, pfxOf_cons_iff.2 ⟨hb.symm,
          pfxOf_cons_iff.2 ⟨hc.symm, by simp [List.isPrefixOf]⟩⟩⟩

/-- The latex-fence scanner is the identity on a string without the fence
marker. -/
theorem latexGo_id : ∀ (f : Nat) (s : List Char),
    hasSub ticks s = false → latexFenceGo f s = s := by
  intro f
  induction f with
  | zero => intro s _; rfl
  | succ f ih =>
    intro s hs
    cases s with
    | nil => rfl
    | cons c r =>
      obtain ⟨h1, h2⟩ := hasSub_false_cons hs
      have htr : ciPfx ticksLatex (c :: r) = false := by
        cases hb : (ciPfx ticksLatex (c :: r) : Bool) with
        | false => rfl
        | true =>
          rw [ciPfx_latex_ticks hb] at h1
          simp at h1
      simp only [latexFenceGo]
      rw [if_neg (by simp [htr]), ih r h2]

/-- The untagged-fence scanner is the identity on a string without the fence
marker. -/
theorem untagGo_id : ∀ (f : Nat) (s : List Char),
    hasSub ticks s = false → untagGo f s = s := by
  intro f
  induction f with
  | zero => intro s _; rfl
  | succ f ih =>
    intro s hs
    cases s with
    | nil => rfl
    | cons c r =>
      obtain ⟨h1, h2⟩ := hasSub_false_cons hs
      simp only [untagGo]
      rw [if_neg (by simp [h1]), ih r h2]

/-- The two-character replace is the identity on a string without the
pattern. -/
theorem repl2_id (x y z : Char) : ∀ (f : Nat) (s : List Char),
    hasSub [x, y] s = false → repl2 x y z f s = s := by
  intro f
  induction f with
  | zero => intro s _; rfl
  | succ f ih =>
    intro s hs
    cases s with
    | nil => rfl
    | cons a s1 =>
      cases s1 with
      | nil => rfl
      | cons b r =>
        obtain ⟨h1, h2⟩ := hasSub_false_cons hs
        have hab : (a = x && b = y) = false := by
          by_cases ha : a = x
          · by_cases hb2 : b = y
            · exfalso
              subst ha
              subst hb2
              have h3 : ([a, b] : List Char).isPrefixOf (a :: b :: r) = true :=
                pfxOf_cons_iff.2 ⟨rfl, pfxOf_cons_iff.2 ⟨rfl, by simp [List.isPrefixOf]⟩⟩
              rw [h3] at h1
              simp at h1
            · simp [hb2]
          · simp [ha]
        simp only [repl2]
        rw [if_neg (by simp [hab]), ih (b :: r) h2]

/-- The masking component's cleaning step is the identity on strings free of
fence markers and of backtick-dollar pairs. -/
theorem cleanStep_id {s : List Char} (h1 : hasSub ticks s = false)
    (h2 : hasSub ['`', '$'] s = false) : cleanStep s = s := by
  simp only [cleanStep]
  rw [fenceGo_id tagsP1 s.length s h1, tickGo_id dd rfl s.length s h2,
    tickGo_id sd rfl s.length s h2]

/-- The display component's preprocessing is the identity on strings free of
fence markers and of the four escaped-delimiter pairs. -/
theorem prepareContent_id {s : List Char} (h1 : hasSub ticks s = false)
    (h3 : hasSub ['\\', '['] s = false) (h4 : hasSub ['\\', ']'] s = false)
    (h5 : hasSub ['\\', '('] s = false) (h6 : hasSub ['\\', ')'] s = false) :
    prepareContent s = s := by
  cases s with
  | nil => rfl
  | cons c r =>
    show prepareContent (c :: r) = c :: r
    simp only [prepareContent]
    rw [latexGo_id (c :: r).length (c :: r) h1, untagGo_id (c :: r).length (c :: r) h1,
      repl2_id '\\' '[' '$' (c :: r).length (c :: r) h3,
      repl2_id '\\' ']' '$' (c :: r).length (c :: r) h4,
      repl2_id '\\' '(' '$' (c :: r).length (c :: r) h5,
      repl2_id '\\' ')' '$' (c :: r).length (c :: r) h6]

/-- Indexing the left part of a concatenation. -/
theorem getq_append_left {α : Type} {l : List α} (m : List α) {j : Nat} {x : α}
    (h : l[j]? = some x) : (l ++ m)[j]? = some x := by
  induction l generalizing j with
  | nil => simp at h
  | cons a r ih =>
    cases j with
    | zero => simpa using h
    | succ k =>
      simp only [List.getElem?_cons_succ] at h
      simpa using ih h

/-- Indexing the right part of a concatenation past the left part. -/
theorem getq_append_right {α : Type} (l : List α) {m : List α} {j : Nat} {x : α}
    (h : m[j]? = some x) : (l ++ m)[l.length + j]? = some x := by
  induction l with
  | nil => simpa using h
  | cons a r ih =>
    have hsh : (a :: r).length + j = (r.length + j) + 1 := by simp; omega
    rw [hsh, List.cons_append, List.getElem?_cons_succ]
    exact ih

/-- A defined optional index determines the defaulted read. -/
theorem getD_of_getq {α : Type} {l : List α} {j : Nat} {x : α} (d : α)
    (h : l[j]? = some x) : l.getD j d = x := by
  induction l generalizing j with
  | nil => simp at h
  | cons a r ih =>
    cases j with
    | zero =>
      simp only [List.getElem?_cons_zero, Option.some_inj] at h
      simp [List.getD, h]
    | succ k =>
      simp only [List.getElem?_cons_succ] at h
      simpa [List.getD] using ih h

/-- Rendered well-separated text contains no backtick. -/
theorem render_noTick : ∀ (segs : List Seg), wfSegs segs = true →
    ∀ c ∈ render segs, c ≠ '`' := by
  intro segs
  induction segs with
  | nil => intro _ c hc; simp [render] at hc
  | cons s r ih =>
    intro h c hc
    obtain ⟨hok, hwf⟩ := wf_cons h
    rcases List.mem_append.1 hc with hm | hm
    · cases s with
      | txt t => exact chunkOk_tick hok c hm
      | disp c0 =>
        simp only [renderSeg, List.mem_append] at hm
        rcases hm with (hm2 | hm2) | hm2
        · intro he; rw [he] at hm2; simp [dd] at hm2
        · exact chunkOk_tick (by simpa [segOk] using hok) c hm2
        · intro he; rw [he] at hm2; simp [dd] at hm2
      | inl c0 =>
        simp only [segOk, Bool.and_eq_true] at hok
        simp only [renderSeg, List.mem_append] at hm
        rcases hm with (hm2 | hm2) | hm2
        · intro he; rw [he] at hm2; simp [sd] at hm2
        · exact chunkOk_tick hok.2 c hm2
        · intro he; rw [he] at hm2; simp [sd] at hm2
    · exact ih hwf c hm

/-- The round-trip core: on rendered well-separated text the full pipeline
with identity markdown is the identity, and the two masking passes push
exactly the display spans followed by the inline spans. -/
theorem roundtrip_core (segs : List Seg) (h : wfSegs segs = true) :
    processContent id (render segs) = render segs ∧
    maskDisplay (render segs) [] = (mrD segs 0, dspans segs) ∧
    maskInline (mrD segs 0) (dspans segs)
      = (mr2 segs 0 (dspans segs).length, dspans segs ++ ispans segs) := by
  have hnt := render_noTick segs h
  have hcs : cleanStep (render segs) = render segs :=
    cleanStep_id (hasSub_noHead _ hnt) (hasSub_noHead _ hnt)
  have hm1 : maskDisplay (render segs) [] = (mrD segs 0, dspans segs) := by
    have := maskD_render segs [] h
    simpa using this
  have hm2 := maskI_mrD segs 0 (dspans segs) h
  have hgB : ∀ j sp, (dspans segs)[j]? = some sp →
      (dspans segs ++ ispans segs).getD (0 + j) undefStr = sp := by
    intro j sp hj
    rw [Nat.zero_add]
    exact getD_of_getq undefStr (getq_append_left (ispans segs) hj)
  have hgI : ∀ j sp, (ispans segs)[j]? = some sp →
      (dspans segs ++ ispans segs).getD ((dspans segs).length + j) undefStr = sp := by
    intro j sp hj
    exact getD_of_getq undefStr (getq_append_right (dspans segs) hj)
  have hc3 := unmaskB_mr2 segs 0 (dspans segs).length (dspans segs ++ ispans segs) h hgB
  have hc4 := unmaskI_ur1 segs (dspans segs).length (dspans segs ++ ispans segs) h hgI
  refine ⟨?_, hm1, hm2⟩
  cases hrender : render segs with
  | nil => rfl
  | cons c0 r0 =>
    rw [← hrender]
    have hne : render segs ≠ [] := by rw [hrender]; simp
    have hmain : processContent id (render segs)
        = unmask wordI (dspans segs ++ ispans segs)
            (unmask wordB (dspans segs ++ ispans segs) (mr2 segs 0 (dspans segs).length)) := by
      rw [processContent.eq_def]
      split
      · next heq => exact absurd heq hne
      · next =>
        simp only [hcs, hm1, hm2, id_eq]
    rw [hmain, hc3, hc4]

/-- Every span of a segment list occurs verbatim in its rendering. -/
theorem spans_infix : ∀ (segs : List Seg), ∀ sp ∈ dspans segs ++ ispans segs,
    hasSub sp (render segs) = true := by
  intro segs
  induction segs with
  | nil =>
    intro sp hsp
    simp [dspans, ispans] at hsp
  | cons s r ih =>
    intro sp hsp
    cases s with
    | txt t =>
      have hsp2 : sp ∈ dspans r ++ ispans r := by simpa [dspans, ispans] using hsp
      exact hasSub_append_right sp t _ (ih sp hsp2)
    | disp c =>
      rcases List.mem_append.1 hsp with hm | hm
      · rcases List.mem_cons.1 (by simpa [dspans] using hm) with heq | hm2
        · subst heq
          show hasSub (dd ++ c ++ dd) ((dd ++ c ++ dd) ++ render r) = true
          exact hasSub_self_append _ _ (by simp [dd])
        · exact hasSub_append_right sp (dd ++ c ++ dd) _
            (ih sp (List.mem_append.2 (Or.inl hm2)))
      · have hm2 : sp ∈ ispans r := by simpa [ispans] using hm
        exact hasSub_append_right sp (dd ++ c ++ dd) _
          (ih sp (List.mem_append.2 (Or.inr hm2)))
    | inl c =>
      rcases List.mem_append.1 hsp with hm | hm
      · have hm2 : sp ∈ dspans r := by simpa [dspans] using hm
        exact hasSub_append_right sp (sd ++ c ++ sd) _
          (ih sp (List.mem_append.2 (Or.inl hm2)))
      · rcases List.mem_cons.1 (by simpa [ispans] using hm) with heq | hm2
        · subst heq
          show hasSub (sd ++ c ++ sd) ((sd ++ c ++ sd) ++ render r) = true
          exact hasSub_self_append _ _ (by simp [sd])
        · exact hasSub_append_right sp (sd ++ c ++ sd) _
            (ih sp (List.mem_append.2 (Or.inr hm2)))

/-- C1 amended: the claim holds on every well-separated text: a text assembled
from plain chunks and math spans, where chunks are free of dollars, backticks
and the reserved token words, inline contents are nonempty, an inline span is
followed by a nonempty chunk or the end, and chunks are not adjacent.  On
such input the pipeline with identity markdown conversion is the identity;
the display pass pushes exactly the display spans (one token each) and the
inline pass appends exactly the inline spans, so counts balance.  On
arbitrary strings the claim is refuted by the counterexample theorem. -/
theorem C1_amended (segs : List Seg) (h : wfSegs segs = true) :
    processContent id (render segs) = render segs ∧
    (maskDisplay (render segs) []).2 = dspans segs ∧
    (maskInline (maskDisplay (render segs) []).1 (maskDisplay (render segs) []).2).2
      = dspans segs ++ ispans segs ∧
    (maskDisplay (render segs) []).2.length = (dspans segs).length ∧
    (maskInline (maskDisplay (render segs) []).1 (maskDisplay (render segs) []).2).2.length
      = (dspans segs).length + (ispans segs).length := by
  obtain ⟨h1, h2, h3⟩ := roundtrip_core segs h
  have hfst : (maskDisplay (render segs) []).1 = mrD segs 0 := by rw [h2]
  have hsnd : (maskDisplay (render segs) []).2 = dspans segs := by rw [h2]
  have hin : (maskInline (maskDisplay (render segs) []).1 (maskDisplay (render segs) []).2).2
      = dspans segs ++ ispans segs := by rw [hfst, hsnd, h3]
  refine ⟨h1, hsnd, hin, by rw [hsnd], by rw [hin]; simp⟩

/-- Witness for C1 at a concrete well-separated text with one inline and one
display span. -/
theorem C1_wit :
    processContent id (render segsW) = render segsW ∧
    (maskDisplay (render segsW) []).2 = dspans segsW ∧
    (maskInline (maskDisplay (render segsW) []).1 (maskDisplay (render segsW) []).2).2
      = dspans segsW ++ ispans segsW ∧
    (maskDisplay (render segsW) []).2.length = (dspans segsW).length ∧
    (maskInline (maskDisplay (render segsW) []).1 (maskDisplay (render segsW) []).2).2.length
      = (dspans segsW).length + (ispans segsW).length :=
  C1_amended segsW (by decide)

/-- C2: display spans are always masked before the inline pass runs — on every
well-separated text the shared list after both passes is exactly the display
spans followed by the inline spans, so no display span is ever parsed as two
inline spans — and on the claim's concrete input the display component's
formatter applies emphasis only to the word between asterisks while the
underscore and asterisk inside the math span survive verbatim. -/
theorem C2_thm :
    (∀ segs : List Seg, wfSegs segs = true →
      (maskInline (maskDisplay (render segs) []).1 (maskDisplay (render segs) []).2).2
        = dspans segs ++ ispans segs) ∧
    formatText (("Regular *text* and $x_i * y_i$ formula").toList)
      = ("Regular <em class=\"text-paris-600 italic\">text</em> and $x_i * y_i$ formula").toList := by
  constructor
  · intro segs h
    obtain ⟨_, h2, h3⟩ := roundtrip_core segs h
    have hfst : (maskDisplay (render segs) []).1 = mrD segs 0 := by rw [h2]
    have hsnd : (maskDisplay (render segs) []).2 = dspans segs := by rw [h2]
    rw [hfst, hsnd, h3]
  · decide

/-- Witness for C2's quantified part at a concrete well-separated text. -/
theorem C2_wit :
    (maskInline (maskDisplay (render segsW) []).1 (maskDisplay (render segsW) []).2).2
      = dspans segsW ++ ispans segsW :=
  C2_thm.1 segsW (by decide)

/-- C6 amended: on well-separated texts (the masking pipeline's domain of
correct operation, as delimited by the C1 counterexample) every math span of
the sanitized text, delimiters and content included, occurs verbatim in the
final output of the pipeline with identity markdown conversion.  On the
non-masking display component the claim is refuted by the counterexample. -/
theorem C6_amended (segs : List Seg) (h : wfSegs segs = true) :
    ∀ sp ∈ dspans segs ++ ispans segs,
      hasSub sp (processContent id (render segs)) = true := by
  intro sp hsp
  rw [(roundtrip_core segs h).1]
  exact spans_infix segs sp hsp

/-- Witness for C6 at a concrete display span. -/
theorem C6_wit :
    hasSub (dd ++ (("\\int f(x) dx = 1").toList) ++ dd)
      (processContent id (render segsW)) = true :=
  C6_amended segsW (by decide) (dd ++ (("\\int f(x) dx = 1").toList) ++ dd) (by decide)

/-- C3: the claim says the bracket-style display delimiters are rewritten to
the double-dollar form, but the replacement string of the source collapses to
a single dollar sign, so the input with escaped brackets around x+1 comes out
with single-dollar inline delimiters; the parenthesis half of the claim holds.
The code contradicts its own adjacent comment, which announces double dollars,
so the spec states the intent and the code has a replacement-escape slip. -/
theorem C3_bug_eval :
    prepareContent (("\\[x+1\\]").toList) = ("$x+1$").toList ∧
    prepareContent (("\\(y\\)").toList) = ("$y$").toList ∧
    prepareContent (("\\[x+1\\]").toList) ≠ ("$$x+1$$").toList := by
  decide

/-- C4: the claim says a latex-tagged fence around x^2=4 unwraps to the
display form with double dollars and no backticks.  No backtick survives, but
the display component's replacement string collapses its doubled dollar
escapes, producing single-dollar inline delimiters, and the masking
component's cleaning pass strips the fence without adding any dollars at all;
the double-dollar string occurs in neither output. -/
theorem C4_bug_eval :
    prepareContent (("```latex\nx^2=4\n```").toList) = ("$x^2=4$").toList ∧
    cleanStep (("```latex\nx^2=4\n```").toList) = ("x^2=4").toList ∧
    noTick (prepareContent (("```latex\nx^2=4\n```").toList)) = true ∧
    noTick (cleanStep (("```latex\nx^2=4\n```").toList)) = true ∧
    hasSub (("$$x^2=4$$").toList) (prepareContent (("```latex\nx^2=4\n```").toList)) = false ∧
    hasSub (("$$").toList) (cleanStep (("```latex\nx^2=4\n```").toList)) = false := by
  decide

/-- C1 counterexample: on the input dollar space double-dollar x double-dollar
space dollar, with the markdown conversion the identity, masking followed by
unmasking is not the identity: the display token is swallowed into an inline
span and leaks into the final output, so a placeholder token remains and a
math span stays masked, refuting the claim's for-all-inputs token balance. -/
theorem C1_cex :
    processContent id (("$ $$x$$ $").toList) = ("$ MATHBLOCK0END $").toList ∧
    processContent id (("$ $$x$$ $").toList) ≠ ("$ $$x$$ $").toList := by
  decide

/-- C5 counterexample: the claim says an untagged fence whose content has no
backslash and no equals sign is left completely unchanged, but the masking
component's cleaning pass strips every fence unconditionally, so the fence
around foo() is unwrapped to bare foo() rather than kept. -/
theorem C5_cex :
    cleanStep (("```\nfoo()\n```").toList) = ("foo()").toList ∧
    processContent id (("```\nfoo()\n```").toList) = ("foo()").toList ∧
    processContent id (("```\nfoo()\n```").toList) ≠ ("```\nfoo()\n```").toList := by
  decide

/-- C6 counterexample: the claim says a newline inside a display span is never
rewritten to a break tag, but the display component runs its replaces without
any masking, so the newline inside the span becomes a break tag and the span
does not appear verbatim in the output. -/
theorem C6_cex :
    formatText (("$$a\nb$$").toList) = ("$$a<br />b$$").toList ∧
    hasSub (("$$a\nb$$").toList) (formatText (("$$a\nb$$").toList)) = false := by
  decide

/-- C9: a rejected AI call is absorbed outside the rendering pipeline: the
catch branch of the add handler merges an update writing the error placeholder
into the English content field and clearing the loading flag, leaving every
other field of the record unchanged, and the chapter-summary generator's catch
branch returns its placeholder string instead of rethrowing. -/
theorem C9_thm :
    (∀ e : Unit, genSummary (Except.error e) = ("Error generating summary.").toList) ∧
    (∀ (e : Unit) (d : DefinitionItem),
      (applyDefUpd d (handleAddOutcome (Except.error e))).aiContentEn
          = some ("Error generating content.") ∧
      (applyDefUpd d (handleAddOutcome (Except.error e))).isLoading = false ∧
      (applyDefUpd d (handleAddOutcome (Except.error e))).id = d.id ∧
      (applyDefUpd d (handleAddOutcome (Except.error e))).createdAt = d.createdAt ∧
      (applyDefUpd d (handleAddOutcome (Except.error e))).subjectId = d.subjectId ∧
      (applyDefUpd d (handleAddOutcome (Except.error e))).chapterId = d.chapterId ∧
      (applyDefUpd d (handleAddOutcome (Except.error e))).term = d.term ∧
      (applyDefUpd d (handleAddOutcome (Except.error e))).userContent = d.userContent ∧
      (applyDefUpd d (handleAddOutcome (Except.error e))).userNotes = d.userNotes ∧
      (applyDefUpd d (handleAddOutcome (Except.error e))).aiContentZh = d.aiContentZh ∧
      (applyDefUpd d (handleAddOutcome (Except.error e))).funAnalogy = d.funAnalogy ∧
      (applyDefUpd d (handleAddOutcome (Except.error e))).chapterConnection
          = d.chapterConnection ∧
      (applyDefUpd d (handleAddOutcome (Except.error e))).uclImportance = d.uclImportance ∧
      (applyDefUpd d (handleAddOutcome (Except.error e))).flashcardSummary
          = d.flashcardSummary ∧
      (applyDefUpd d (handleAddOutcome (Except.error e))).relatedExtensions
          = d.relatedExtensions ∧
      (applyDefUpd d (handleAddOutcome (Except.error e))).mastery = d.mastery ∧
      (applyDefUpd d (handleAddOutcome (Except.error e))).lastReviewed = d.lastReviewed) := by
  exact ⟨fun e => rfl, fun e d =>
    ⟨rfl, rfl, rfl, rfl, rfl, rfl, rfl, rfl, rfl, rfl, rfl, rfl, rfl, rfl, rfl, rfl, rfl⟩⟩

/-- C10: each of the three store update operations touches only the records
whose id matches: the collection keeps its length (hence the relative order of
positions), a position holding a record with a different id is unchanged, a
position holding a matching record receives the field-merge of that record and
the update, and a collection without the id is returned unchanged. -/
theorem C10_thm :
    (∀ (i : String) (u : DefUpd) (l : List DefinitionItem),
      (updateDefinition i u l).length = l.length ∧
      (∀ (j : Nat) (d : DefinitionItem), l[j]? = some d →
        (d.id ≠ i → (updateDefinition i u l)[j]? = some d) ∧
        (d.id = i → (updateDefinition i u l)[j]? = some (applyDefUpd d u))) ∧
      ((∀ d ∈ l, d.id ≠ i) → updateDefinition i u l = l)) ∧
    (∀ (i : String) (u : ThmUpd) (l : List TheoremItem),
      (updateTheorem i u l).length = l.length ∧
      (∀ (j : Nat) (d : TheoremItem), l[j]? = some d →
        (d.id ≠ i → (updateTheorem i u l)[j]? = some d) ∧
        (d.id = i → (updateTheorem i u l)[j]? = some (applyThmUpd d u))) ∧
      ((∀ d ∈ l, d.id ≠ i) → updateTheorem i u l = l)) ∧
    (∀ (i : String) (u : ProbUpd) (l : List ProblemItem),
      (updateProblem i u l).length = l.length ∧
      (∀ (j : Nat) (d : ProblemItem), l[j]? = some d →
        (d.id ≠ i → (updateProblem i u l)[j]? = some d) ∧
        (d.id = i → (updateProblem i u l)[j]? = some (applyProbUpd d u))) ∧
      ((∀ d ∈ l, d.id ≠ i) → updateProblem i u l = l)) := by
  refine ⟨fun i u l => ⟨List.length_map l _, fun j d hj => ⟨fun hne => ?_, fun heq => ?_⟩,
            fun hall => map_fix _ l fun d hd => if_neg (hall d hd)⟩,
          fun i u l => ⟨List.length_map l _, fun j d hj => ⟨fun hne => ?_, fun heq => ?_⟩,
            fun hall => map_fix _ l fun d hd => if_neg (hall d hd)⟩,
          fun i u l => ⟨List.length_map l _, fun j d hj => ⟨fun hne => ?_, fun heq => ?_⟩,
            fun hall => map_fix _ l fun d hd => if_neg (hall d hd)⟩⟩
  · show (l.map _)[j]? = _
    rw [getq_map _ l j d hj, if_neg hne]
  · show (l.map _)[j]? = _
    rw [getq_map _ l j d hj, if_pos heq]
  · show (l.map _)[j]? = _
    rw [getq_map _ l j d hj, if_neg hne]
  · show (l.map _)[j]? = _
    rw [getq_map _ l j d hj, if_pos heq]
  · show (l.map _)[j]? = _
    rw [getq_map _ l j d hj, if_neg hne]
  · show (l.map _)[j]? = _
    rw [getq_map _ l j d hj, if_pos heq]

/-- Witness for C10 at concrete inputs: a two-record store, an update aimed at
the first id, and an absent id. -/
theorem C10_wit :
    (updateDefinition ("d1") defUpdW [defW, defW2]).length = 2 ∧
    (updateDefinition ("d1") defUpdW [defW, defW2])[0]? = some (applyDefUpd defW defUpdW) ∧
    (updateDefinition ("d1") defUpdW [defW, defW2])[1]? = some defW2 ∧
    updateDefinition ("zz") defUpdW [defW, defW2] = [defW, defW2] ∧
    (updateTheorem ("t1") thmUpdW [thmW])[0]? = some (applyThmUpd thmW thmUpdW) ∧
    updateTheorem ("zz") thmUpdW [thmW] = [thmW] ∧
    (updateProblem ("p1") probUpdW [probW])[0]? = some (applyProbUpd probW probUpdW) ∧
    updateProblem ("zz") probUpdW [probW] = [probW] := by
  refine ⟨(C10_thm.1 ("d1") defUpdW [defW, defW2]).1,
    ((C10_thm.1 ("d1") defUpdW [defW, defW2]).2.1 0 defW (by decide)).2 (by decide),
    ((C10_thm.1 ("d1") defUpdW [defW, defW2]).2.1 1 defW2 (by decide)).1 (by decide),
    (C10_thm.1 ("zz") defUpdW [defW, defW2]).2.2 (by decide),
    ((C10_thm.2.1 ("t1") thmUpdW [thmW]).2.1 0 thmW (by decide)).2 (by decide),
    (C10_thm.2.1 ("zz") thmUpdW [thmW]).2.2 (by decide),
    ((C10_thm.2.2 ("p1") probUpdW [probW]).2.1 0 probW (by decide)).2 (by decide),
    (C10_thm.2.2 ("zz") probUpdW [probW]).2.2 (by decide)⟩

/-- C7: on already-canonical input — no fence marker, no backtick-dollar
pair, and none of the four escaped LaTeX delimiter pairs — both sanitizers
are the identity, hence idempotent, and running either pipeline on the
sanitized text equals running it on the raw text for every markdown
conversion. -/
theorem C7_thm {s : List Char} (h1 : hasSub ticks s = false)
    (h2 : hasSub ['`', '$'] s = false)
    (h3 : hasSub ['\\', '['] s = false) (h4 : hasSub ['\\', ']'] s = false)
    (h5 : hasSub ['\\', '('] s = false) (h6 : hasSub ['\\', ')'] s = false) :
    prepareContent (prepareContent s) = prepareContent s ∧
    cleanStep (cleanStep s) = cleanStep s ∧
    (∀ md, processContent md (cleanStep s) = processContent md s) ∧
    (∀ md, processContent md (prepareContent s) = processContent md s) := by
  have hp := prepareContent_id h1 h3 h4 h5 h6
  have hc : cleanStep s = s := cleanStep_id h1 h2
  exact ⟨by rw [hp, hp], by rw [hc, hc], fun md => by rw [hc], fun md => by rw [hp]⟩

/-- Witness for C7 at a concrete canonical string with one inline and one
display span. -/
theorem C7_wit :
    prepareContent (prepareContent (("Let $x$ and $$y$$ hold.").toList))
        = prepareContent (("Let $x$ and $$y$$ hold.").toList) ∧
    cleanStep (cleanStep (("Let $x$ and $$y$$ hold.").toList))
        = cleanStep (("Let $x$ and $$y$$ hold.").toList) ∧
    processContent id (cleanStep (("Let $x$ and $$y$$ hold.").toList))
        = processContent id (("Let $x$ and $$y$$ hold.").toList) ∧
    processContent id (prepareContent (("Let $x$ and $$y$$ hold.").toList))
        = processContent id (("Let $x$ and $$y$$ hold.").toList) := by
  have h := C7_thm (s := ("Let $x$ and $$y$$ hold.").toList) (by decide) (by decide)
    (by decide) (by decide) (by decide) (by decide)
  exact ⟨h.1, h.2.1, h.2.2.1 id, h.2.2.2 id⟩

/-- One negative step of the masking scanner. -/
theorem maskGo_step_neg {del : List Char} {mk : Nat → List Char} {f : Nat} {c : Char}
    {r : List Char} {xs : List (List Char)} (h : del.isPrefixOf (c :: r) = false) :
    maskGo del mk (f + 1) (c :: r) xs
      = (c :: (maskGo del mk f r xs).1, (maskGo del mk f r xs).2) := by
  simp only [maskGo]
  rw [if_neg (by simp [h])]

/-- One step of the masking scanner at an opener with no later closer: the
character is copied and the span is not extracted. -/
theorem maskGo_step_none {del : List Char} {mk : Nat → List Char} {f : Nat} {c : Char}
    {r : List Char} {xs : List (List Char)} (hp : del.isPrefixOf (c :: r) = true)
    (hsp : splitFirst del ((c :: r).drop del.length) = none) :
    maskGo del mk (f + 1) (c :: r) xs
      = (c :: (maskGo del mk f r xs).1, (maskGo del mk f r xs).2) := by
  simp only [maskGo]
  rw [if_pos hp]
  simp only [hsp]

/-- The masking scanner is the identity on a string whose characters never
start its delimiter. -/
theorem maskGo_pass_all {del : List Char} {mk : Nat → List Char} {x : Char}
    (hx : del.head? = some x) (a : List Char) (xs : List (List Char))
    (ha : ∀ c ∈ a, c ≠ x) : maskGo del mk a.length a xs = (a, xs) := by
  have h := @maskGo_pass del mk x hx a [] xs ha
  have h0 : maskGo del mk 0 [] xs = (([] : List Char), xs) := rfl
  simpa [h0] using h

/-- The unmasking scanner is the identity on a string not containing the
token word. -/
theorem unmask_pass_all {w : List Char} {x : Char} (hw : w.head? = some x)
    (xs : List (List Char)) (a : List Char) (hsub : hasSub w a = false) :
    unmaskGo w xs a.length a = a := by
  have hbd : ∀ k, 0 < k → k < w.length → (w.drop k).head? ≠ ([] : List Char).head? := by
    intro k hk1 hk2
    cases hw2 : w.drop k with
    | nil =>
      have hlen := congrArg List.length hw2
      simp only [List.length_drop, List.length_nil] at hlen
      omega
    | cons b l => simp
  have h := unmask_pass_sub hw xs a [] hsub hbd
  have h0 : unmaskGo w xs 0 [] = ([] : List Char) := rfl
  simpa [h0] using h

/-- The two-dollar delimiter does not open at a lone dollar. -/
theorem dd_pfx_single {u : List Char} (hu : u.head? ≠ some '$') :
    dd.isPrefixOf ('$' :: u) = false := by
  cases hb : (dd.isPrefixOf ('$' :: u) : Bool) with
  | false => rfl
  | true =>
    exfalso
    have hb2 : ('$' :: '$' :: ([] : List Char)).isPrefixOf ('$' :: u) = true := hb
    obtain ⟨_, h2⟩ := pfxOf_cons_iff.1 hb2
    cases u with
    | nil => simp [List.isPrefixOf] at h2
    | cons u0 ur =>
      obtain ⟨he, _⟩ := pfxOf_cons_iff.1 h2
      exact hu (by rw [← he]; rfl)

/-- A plain chunk does not start with a dollar. -/
theorem chunk_head_ne {t : List Char} (h : chunkOk t = true) : t.head? ≠ some '$' := by
  cases t with
  | nil => simp
  | cons c r =>
    have hc := chunkOk_dollar h c (List.mem_cons_self c r)
    simpa using hc

/-- Extending a negative substring test by a character that never starts the
word. -/
theorem hasSub_cons_noHead {w : List Char} {x : Char} (hw : w.head? = some x) {c : Char}
    (hc : c ≠ x) {r : List Char} (hr : hasSub w r = false) :
    hasSub w (c :: r) = false := by
  rw [hasSub_cons, not_pfxOf_of_head hw hc r, hr]
  rfl

/-- Concatenating two word-free strings stays word-free when the boundary
characters of the word rule out a straddling occurrence. -/
theorem hasSub_app_word {w : List Char} {x : Char} (hw : w.head? = some x)
    {a b : List Char} (hA : hasSub w a = false) (hB : hasSub w b = false)
    (hbd : ∀ k, 0 < k → k < w.length → (w.drop k).head? ≠ b.head?) :
    hasSub w (a ++ b) = false := by
  induction a with
  | nil => simpa using hB
  | cons c a ih =>
    obtain ⟨h1, h2⟩ := hasSub_false_cons hA
    have hrec := ih h2
    have hfalse : w.isPrefixOf (c :: (a ++ b)) = false := by
      cases hb : (w.isPrefixOf (c :: (a ++ b)) : Bool) with
      | false => rfl
      | true =>
        exfalso
        have hb2 : w.isPrefixOf ((c :: a) ++ b) = true := by
          rw [List.cons_append]
          exact hb
        rcases pfxOf_append_split hb2 with h3 | ⟨h4, h5⟩
        · rw [h3] at h1
          simp at h1
        · have hk1 : 0 < (c :: a).length := by simp
          have hbd2 := hbd (c :: a).length hk1 h4
          cases hw2 : w.drop (c :: a).length with
          | nil =>
            have hlen := congrArg List.length hw2
            simp only [List.length_drop, List.length_nil] at hlen
            omega
          | cons wc wr =>
            rw [hw2] at h5
            cases b with
            | nil => simp [List.isPrefixOf] at h5
            | cons u0 ur =>
              obtain ⟨he, _⟩ := pfxOf_cons_iff.1 h5
              rw [hw2] at hbd2
              exact hbd2 (by rw [he]; rfl)
    rw [List.cons_append, hasSub_cons, hfalse, hrec]
    rfl

/-- Unfolding the case-insensitive prefix test on two cons cells. -/
theorem ciPfx_cons (p c : Char) (ps cs : List Char) :
    ciPfx (p :: ps) (c :: cs)
      = ((c = p || (p.isLower && c.toNat = p.toNat - 32)) && ciPfx ps cs) := rfl

/-- The latex-fence trigger fails off a backtick. -/
theorem ciPfx_head_ne {c : Char} (hc : c ≠ '`') (r : List Char) :
    ciPfx ticksLatex (c :: r) = false := by
  show ciPfx ('`' :: '`' :: '`' :: 'l' :: 'a' :: 't' :: 'e' :: 'x' :: []) (c :: r) = false
  rw [ciPfx_cons]
  have hlow : ('`'.isLower : Bool) = false := by decide
  have h1 : ((c = '`' || ('`'.isLower && c.toNat = '`'.toNat - 32)) : Bool) = false := by
    simp [hc, hlow]
  rw [h1]
  simp

/-- The latex-fence trigger fails at the fence marker when a newline
follows. -/
theorem ciPfx_ticks_nl (u : List Char) :
    ciPfx ticksLatex ('`' :: '`' :: '`' :: '\n' :: u) = false := by
  show ciPfx ('`' :: '`' :: '`' :: 'l' :: 'a' :: 't' :: 'e' :: 'x' :: [])
      ('`' :: '`' :: '`' :: '\n' :: u) = false
  rw [ciPfx_cons, ciPfx_cons, ciPfx_cons, ciPfx_cons]
  have h4 : ((('\n' : Char) = 'l'
      || ('l'.isLower && ('\n' : Char).toNat = 'l'.toNat - 32)) : Bool) = false := by decide
  rw [h4]
  simp

/-- The latex-fence trigger fails on two backticks before a newline. -/
theorem ciPfx_ticks2 (u : List Char) :
    ciPfx ticksLatex ('`' :: '`' :: '\n' :: u) = false := by
  show ciPfx ('`' :: '`' :: '`' :: 'l' :: 'a' :: 't' :: 'e' :: 'x' :: [])
      ('`' :: '`' :: '\n' :: u) = false
  rw [ciPfx_cons, ciPfx_cons, ciPfx_cons]
  have h3 : ((('\n' : Char) = '`'
      || ('`'.isLower && ('\n' : Char).toNat = '`'.toNat - 32)) : Bool) = false := by decide
  rw [h3]
  simp

/-- The latex-fence trigger fails on one backtick before a newline. -/
theorem ciPfx_ticks1 (u : List Char) :
    ciPfx ticksLatex ('`' :: '\n' :: u) = false := by
  show ciPfx ('`' :: '`' :: '`' :: 'l' :: 'a' :: 't' :: 'e' :: 'x' :: [])
      ('`' :: '\n' :: u) = false
  rw [ciPfx_cons, ciPfx_cons]
  have h2 : ((('\n' : Char) = '`'
      || ('`'.isLower && ('\n' : Char).toNat = '`'.toNat - 32)) : Bool) = false := by decide
  rw [h2]
  simp

/-- The latex-fence trigger fails on every suffix of a bare fence marker. -/
theorem ciPfx_ticks_drop (k : Nat) : ciPfx ticksLatex (ticks.drop k) = false := by
  match k with
  | 0 => decide
  | 1 => decide
  | 2 => decide
  | (j + 3) =>
    show ciPfx ticksLatex (List.drop j []) = false
    rw [List.drop_nil]
    rfl

/-- One negative step of the latex-fence scanner. -/
theorem latexGo_step_neg {f : Nat} {c : Char} {r : List Char}
    (h : ciPfx ticksLatex (c :: r) = false) :
    latexFenceGo (f + 1) (c :: r) = c :: latexFenceGo f r := by
  simp only [latexFenceGo]
  rw [if_neg (by simp [h])]

/-- The latex-fence scanner is the identity when no suffix triggers. -/
theorem latexGo_no_trig : ∀ (f : Nat) (s : List Char),
    (∀ n, ciPfx ticksLatex (s.drop n) = false) → latexFenceGo f s = s := by
  intro f
  induction f with
  | zero => intro s _; rfl
  | succ f ih =>
    intro s hs
    cases s with
    | nil => rfl
    | cons c r =>
      rw [latexGo_step_neg (by simpa using hs 0), ih r (fun n => by simpa using hs (n + 1))]

/-- No suffix of a backtick-free content followed by a closing fence marker
triggers the latex-fence replace. -/
theorem latex_trig_content : ∀ (d : List Char), (∀ x ∈ d, x ≠ '`') →
    ∀ m, ciPfx ticksLatex ((d ++ '\n' :: ticks).drop m) = false := by
  intro d
  induction d with
  | nil =>
    intro _ m
    match m with
    | 0 =>
      show ciPfx ticksLatex ('\n' :: ticks) = false
      exact ciPfx_head_ne (by decide) _
    | (k + 1) =>
      show ciPfx ticksLatex (ticks.drop k) = false
      exact ciPfx_ticks_drop k
  | cons e d ih =>
    intro hd m
    match m with
    | 0 =>
      show ciPfx ticksLatex (e :: (d ++ '\n' :: ticks)) = false
      exact ciPfx_head_ne (hd e (List.mem_cons_self e d)) _
    | (k + 1) =>
      show ciPfx ticksLatex ((d ++ '\n' :: ticks).drop k) = false
      exact ih (fun x hx => hd x (List.mem_cons_of_mem e hx)) k

/-- The latex-fence replace is the identity on a newline-framed untagged
fence with backtick-free content. -/
theorem latexGo_fence (c0 : Char) (cr : List Char) (hc : ∀ x ∈ c0 :: cr, x ≠ '`') :
    ∀ f, latexFenceGo f (ticks ++ '\n' :: (c0 :: cr) ++ '\n' :: ticks)
      = ticks ++ '\n' :: (c0 :: cr) ++ '\n' :: ticks := by
  intro f
  apply latexGo_no_trig
  intro n
  match n with
  | 0 => exact ciPfx_ticks_nl _
  | 1 => exact ciPfx_ticks2 _
  | 2 => exact ciPfx_ticks1 _
  | (m + 3) =>
    show ciPfx ticksLatex (('\n' :: ((c0 :: cr) ++ '\n' :: ticks)).drop m) = false
    match m with
    | 0 => exact ciPfx_head_ne (by decide) _
    | (k + 1) =>
      show ciPfx ticksLatex (((c0 :: cr) ++ '\n' :: ticks).drop k) = false
      exact latex_trig_content (c0 :: cr) hc k

/-- The untagged-fence scanner consumes no fuel on the empty string. -/
theorem untagGo_nil : ∀ f, untagGo f [] = [] := by
  intro f
  cases f with
  | zero => rfl
  | succ g => rfl

/-- The untagged-fence scanner on one newline-framed fence whose content is
backtick-free and starts and ends off whitespace: content with a backslash or
an equals sign is rewrapped in display dollars, other content is left as the
original fenced block. -/
theorem untagGo_fence (f : Nat) (c0 : Char) (cr : List Char)
    (hc : ∀ x ∈ c0 :: cr, x ≠ '`') (h0 : isWs c0 = false)
    (hl : isWs (((c0 :: cr).reverse).headD 'a') = false) :
    untagGo (f + 1) ('`' :: '`' :: '`' :: '\n' :: ((c0 :: cr) ++ '\n' :: ticks))
      = if (c0 :: cr).contains '\\' || (c0 :: cr).contains '='
        then dd ++ (c0 :: cr) ++ dd
        else ticks ++ '\n' :: (c0 :: cr) ++ '\n' :: ticks := by
  have hp : ticks.isPrefixOf ('`' :: '`' :: '`' :: '\n' :: ((c0 :: cr) ++ '\n' :: ticks))
      = true := pfxOf_self_append ticks _
  have hdrop3 : ('`' :: '`' :: '`' :: '\n' :: ((c0 :: cr) ++ '\n' :: ticks)).drop 3
      = '\n' :: ((c0 :: cr) ++ '\n' :: ticks) := rfl
  have hlead : List.takeWhile isWs ('\n' :: ((c0 :: cr) ++ '\n' :: ticks)) = ['\n'] := by
    rw [List.takeWhile_cons, if_pos (by decide), List.cons_append, List.takeWhile_cons,
      if_neg (by simp [h0])]
  have hdw : List.dropWhile isWs ('\n' :: ((c0 :: cr) ++ '\n' :: ticks))
      = (c0 :: cr) ++ '\n' :: ticks := by
    rw [List.dropWhile_cons, if_pos (by decide), List.cons_append, List.dropWhile_cons,
      if_neg (by simp [h0])]
  have hsp : splitFirst ticks ((c0 :: cr) ++ '\n' :: ticks)
      = some ((c0 :: cr) ++ ['\n'], []) := by
    have h := splitFirst_notHead (rfl : ticks.head? = some '`') ((c0 :: cr) ++ ['\n']) []
      (by intro x hx
          rcases List.mem_append.1 hx with h2 | h2
          · exact hc x h2
          · rcases List.mem_cons.1 h2 with rfl | h3
            · decide
            · simp at h3)
    rw [List.append_nil] at h
    simpa using h
  have htrim : trimEndWs ((c0 :: cr) ++ ['\n']) = c0 :: cr := by
    unfold trimEndWs
    have h1 : ((c0 :: cr) ++ ['\n']).reverse = '\n' :: (c0 :: cr).reverse := by simp
    rw [h1, List.dropWhile_cons, if_pos (by decide)]
    cases hrev : (c0 :: cr).reverse with
    | nil =>
      exfalso
      have h2 := congrArg List.length hrev
      simp at h2
    | cons y ys =>
      have hy : isWs y = false := by
        rw [hrev] at hl
        simpa using hl
      rw [List.dropWhile_cons, if_neg (by simp [hy]), ← hrev, List.reverse_reverse]
  simp only [untagGo]
  rw [if_pos hp]
  simp only [hdrop3, hlead, hdw, hsp, htrim, untagGo_nil, List.append_nil]
  split
  · rfl
  · simp

/-- A backslash-delimiter pair absent from a span's content stays absent when
the span is wrapped in display dollars. -/
theorem hasSub_pair_dd {y : Char} (hy : ('$' : Char) ≠ y) {c : List Char}
    (hb : hasSub ['\\', y] c = false) :
    hasSub ['\\', y] (dd ++ c ++ dd) = false := by
  have hdd : hasSub ['\\', y] dd = false := hasSub_noHead [y] (by decide)
  refine hasSub2_app (hasSub2_app hdd hb ?_) hdd ?_
  · intro h
    exact absurd h.1 (by decide)
  · intro h
    have h2 : ('$' : Char) = y := by simpa [dd] using h.2
    exact hy h2

/-- A backslash-delimiter pair absent from a fence's content is absent from
the whole newline-framed fenced block. -/
theorem hasSub_pair_fence {y : Char} (hy : ('\n' : Char) ≠ y) {c : List Char}
    (hb : hasSub ['\\', y] c = false) :
    hasSub ['\\', y] (ticks ++ '\n' :: c ++ '\n' :: ticks) = false := by
  have hticks : hasSub ['\\', y] ticks = false := hasSub_noHead [y] (by decide)
  have hnlc : hasSub ['\\', y] ('\n' :: c) = false :=
    hasSub_cons_noHead (rfl : (['\\', y] : List Char).head? = some '\\') (by decide) hb
  have hA : hasSub ['\\', y] (ticks ++ '\n' :: c) = false := by
    refine hasSub2_app hticks hnlc ?_
    intro h
    exact absurd h.1 (by decide)
  have htail : hasSub ['\\', y] ('\n' :: ticks) = false :=
    hasSub_cons_noHead (rfl : (['\\', y] : List Char).head? = some '\\') (by decide) hticks
  refine hasSub2_app hA htail ?_
  intro h
  have h2 : ('\n' : Char) = y := by simpa using h.2
  exact hy h2

/-- C8: safety on malformed input.  Both pipelines are total functions of the
embedding, so no run raises an exception; empty input yields empty output in
both; a lone unmatched inline dollar between plain chunks passes through the
masking pipeline unchanged; and an unterminated display delimiter likewise
survives — it is briefly masked as an empty inline span and restored
verbatim. -/
theorem C8_thm :
    (∀ md, processContent md [] = []) ∧
    prepareContent [] = [] ∧
    (∀ t1 t2 : List Char, chunkOk t1 = true → chunkOk t2 = true →
      processContent id (t1 ++ '$' :: t2) = t1 ++ '$' :: t2) ∧
    (∀ t1 t2 : List Char, chunkOk t1 = true → chunkOk t2 = true →
      processContent id (t1 ++ '$' :: '$' :: t2) = t1 ++ '$' :: '$' :: t2) := by
  refine ⟨fun md => rfl, rfl, ?_, ?_⟩
  · intro t1 t2 h1 h2
    have ht1d := chunkOk_dollar h1
    have ht2d := chunkOk_dollar h2
    have hnt : ∀ c ∈ t1 ++ '$' :: t2, c ≠ '`' := by
      intro c hc
      rcases List.mem_append.1 hc with h | h
      · exact chunkOk_tick h1 c h
      · rcases List.mem_cons.1 h with rfl | h
        · decide
        · exact chunkOk_tick h2 c h
    have hcs : cleanStep (t1 ++ '$' :: t2) = t1 ++ '$' :: t2 :=
      cleanStep_id (hasSub_noHead _ hnt) (hasSub_noHead _ hnt)
    have hmD : maskDisplay (t1 ++ '$' :: t2) [] = (t1 ++ '$' :: t2, []) := by
      unfold maskDisplay
      rw [@maskGo_pass dd tokD '$' rfl t1 ('$' :: t2) [] ht1d]
      have hstep : maskGo dd tokD ('$' :: t2).length ('$' :: t2) ([] : List (List Char))
          = ('$' :: t2, []) := by
        show maskGo dd tokD (t2.length + 1) ('$' :: t2) [] = ('$' :: t2, [])
        rw [maskGo_step_neg (dd_pfx_single (chunk_head_ne h2)),
          maskGo_pass_all (rfl : dd.head? = some '$') t2 [] ht2d]
      rw [hstep]
    have hmI : maskInline (t1 ++ '$' :: t2) [] = (t1 ++ '$' :: t2, []) := by
      unfold maskInline
      rw [@maskGo_pass sd tokI '$' rfl t1 ('$' :: t2) [] ht1d]
      have hp : sd.isPrefixOf ('$' :: t2) = true :=
        pfxOf_cons_iff.2 ⟨rfl, by simp [List.isPrefixOf]⟩
      have hsp : splitFirst sd (('$' :: t2).drop sd.length) = none :=
        splitFirst_none (rfl : sd.head? = some '$') t2 ht2d
      have hstep : maskGo sd tokI ('$' :: t2).length ('$' :: t2) ([] : List (List Char))
          = ('$' :: t2, []) := by
        show maskGo sd tokI (t2.length + 1) ('$' :: t2) [] = ('$' :: t2, [])
        rw [maskGo_step_none hp hsp, maskGo_pass_all (rfl : sd.head? = some '$') t2 [] ht2d]
      rw [hstep]
    have hsB : hasSub wordB (t1 ++ '$' :: t2) = false := by
      refine hasSub_app_word (rfl : wordB.head? = some 'M') (chunkOk_wordB h1)
        (hasSub_cons_noHead (rfl : wordB.head? = some 'M') (by decide) (chunkOk_wordB h2)) ?_
      intro k hk1 hk2
      show (wordB.drop k).head? ≠ some '$'
      exact wordB_bd hk1 hk2 (Or.inr (Or.inl rfl))
    have hsI : hasSub wordI (t1 ++ '$' :: t2) = false := by
      refine hasSub_app_word (rfl : wordI.head? = some 'M') (chunkOk_wordI h1)
        (hasSub_cons_noHead (rfl : wordI.head? = some 'M') (by decide) (chunkOk_wordI h2)) ?_
      intro k hk1 hk2
      show (wordI.drop k).head? ≠ some '$'
      exact wordI_bd hk1 hk2 (Or.inr (Or.inl rfl))
    have huB : unmask wordB [] (t1 ++ '$' :: t2) = t1 ++ '$' :: t2 := by
      unfold unmask
      exact unmask_pass_all (rfl : wordB.head? = some 'M') [] _ hsB
    have huI : unmask wordI [] (t1 ++ '$' :: t2) = t1 ++ '$' :: t2 := by
      unfold unmask
      exact unmask_pass_all (rfl : wordI.head? = some 'M') [] _ hsI
    have hne : t1 ++ '$' :: t2 ≠ [] := by simp
    have hmain : processContent id (t1 ++ '$' :: t2)
        = unmask wordI [] (unmask wordB [] (t1 ++ '$' :: t2)) := by
      rw [processContent.eq_def]
      split
      · next heq => exact absurd heq hne
      · next => simp only [hcs, hmD, hmI, id_eq]
    rw [hmain, huB, huI]
  · intro t1 t2 h1 h2
    have ht1d := chunkOk_dollar h1
    have ht2d := chunkOk_dollar h2
    have hnt : ∀ c ∈ t1 ++ '$' :: '$' :: t2, c ≠ '`' := by
      intro c hc
      rcases List.mem_append.1 hc with h | h
      · exact chunkOk_tick h1 c h
      · rcases List.mem_cons.1 h with rfl | h
        · decide
        · rcases List.mem_cons.1 h with rfl | h
          · decide
          · exact chunkOk_tick h2 c h
    have hcs : cleanStep (t1 ++ '$' :: '$' :: t2) = t1 ++ '$' :: '$' :: t2 :=
      cleanStep_id (hasSub_noHead _ hnt) (hasSub_noHead _ hnt)
    have hmD : maskDisplay (t1 ++ '$' :: '$' :: t2) [] = (t1 ++ '$' :: '$' :: t2, []) := by
      unfold maskDisplay
      rw [@maskGo_pass dd tokD '$' rfl t1 ('$' :: '$' :: t2) [] ht1d]
      have hp : dd.isPrefixOf ('$' :: '$' :: t2) = true :=
        pfxOf_cons_iff.2 ⟨rfl, pfxOf_cons_iff.2 ⟨rfl, by simp [List.isPrefixOf]⟩⟩
      have hsp : splitFirst dd (('$' :: '$' :: t2).drop dd.length) = none :=
        splitFirst_none (rfl : dd.head? = some '$') t2 ht2d
      have hstep2 : maskGo dd tokD ('$' :: t2).length ('$' :: t2) ([] : List (List Char))
          = ('$' :: t2, []) := by
        show maskGo dd tokD (t2.length + 1) ('$' :: t2) [] = ('$' :: t2, [])
        rw [maskGo_step_neg (dd_pfx_single (chunk_head_ne h2)),
          maskGo_pass_all (rfl : dd.head? = some '$') t2 [] ht2d]
      have hstep : maskGo dd tokD ('$' :: '$' :: t2).length ('$' :: '$' :: t2)
          ([] : List (List Char)) = ('$' :: '$' :: t2, []) := by
        show maskGo dd tokD (('$' :: t2).length + 1) ('$' :: '$' :: t2) []
          = ('$' :: '$' :: t2, [])
        rw [maskGo_step_none hp hsp, hstep2]
      rw [hstep]
    have hmI : maskInline (t1 ++ '$' :: '$' :: t2) []
        = (t1 ++ (tokI 0 ++ t2), [['$', '$']]) := by
      unfold maskInline
      rw [@maskGo_pass sd tokI '$' rfl t1 ('$' :: '$' :: t2) [] ht1d]
      have hstep : maskGo sd tokI ('$' :: '$' :: t2).length ('$' :: '$' :: t2)
          ([] : List (List Char)) = (tokI 0 ++ t2, [['$', '$']]) := by
        have h := @maskGo_action sd tokI '$' (by simp [sd]) rfl [] t2
          ([] : List (List Char)) (by simp)
        have hsh : sd ++ (([] : List Char) ++ (sd ++ t2)) = '$' :: '$' :: t2 := by
          simp [sd]
        rw [hsh] at h
        rw [h, maskGo_pass_all (rfl : sd.head? = some '$') t2 _ ht2d]
        simp [sd]
      rw [hstep]
    have hbdI : (tokI 0 ++ t2).head? = some 'M' := by
      simp [tokI, wordI]
    have huB : unmask wordB [['$', '$']] (t1 ++ (tokI 0 ++ t2)) = t1 ++ (tokI 0 ++ t2) := by
      unfold unmask
      rw [unmask_pass_sub (rfl : wordB.head? = some 'M') [['$', '$']] t1 (tokI 0 ++ t2) (chunkOk_wordB h1)
        (by intro k hk1 hk2
            rw [hbdI]
            exact wordB_bd hk1 hk2 (Or.inl rfl)),
        unmaskB_skip_tokI [['$', '$']] 0 t2,
        unmask_pass_all (rfl : wordB.head? = some 'M') [['$', '$']] t2 (chunkOk_wordB h2)]
    have hshape : tokI 0 ++ t2 = wordI ++ (natToDigits 0 ++ (endW ++ t2)) := by
      simp [tokI]
    have huI : unmask wordI [['$', '$']] (t1 ++ (tokI 0 ++ t2))
        = t1 ++ '$' :: '$' :: t2 := by
      unfold unmask
      rw [unmask_pass_sub (rfl : wordI.head? = some 'M') [['$', '$']] t1 (tokI 0 ++ t2) (chunkOk_wordI h1)
        (by intro k hk1 hk2
            rw [hbdI]
            exact wordI_bd hk1 hk2 (Or.inl rfl)),
        hshape, unmask_action (by simp [wordI]) [['$', '$']] 0 t2,
        unmask_pass_all (rfl : wordI.head? = some 'M') [['$', '$']] t2 (chunkOk_wordI h2)]
      rfl
    have hne : t1 ++ '$' :: '$' :: t2 ≠ [] := by simp
    have hmain : processContent id (t1 ++ '$' :: '$' :: t2)
        = unmask wordI [['$', '$']] (unmask wordB [['$', '$']] (t1 ++ (tokI 0 ++ t2))) := by
      rw [processContent.eq_def]
      split
      · next heq => exact absurd heq hne
      · next => simp only [hcs, hmD, hmI, id_eq]
    rw [hmain, huB, huI]

/-- Witness for C8 at concrete inputs: a lone dollar and an unterminated
double dollar between two plain words. -/
theorem C8_wit :
    processContent id (("ab").toList ++ '$' :: ("cd").toList)
      = ("ab").toList ++ '$' :: ("cd").toList ∧
    processContent id (("ab").toList ++ '$' :: '$' :: ("cd").toList)
      = ("ab").toList ++ '$' :: '$' :: ("cd").toList :=
  ⟨C8_thm.2.2.1 (("ab").toList) (("cd").toList) (by decide) (by decide),
   C8_thm.2.2.2 (("ab").toList) (("cd").toList) (by decide) (by decide)⟩

/-- C5: the untagged-fence heuristic holds for the display component's
sanitizer: on a single newline-framed untagged fence whose backtick-free
content starts and ends off whitespace and contains no escaped LaTeX
delimiter pair, prepareContent rewraps the content in display dollars
exactly when the content contains a backslash or an equals sign, and
otherwise returns the fenced block unchanged.  The masking component's
cleaner instead strips every fence unconditionally (see the
counterexample). -/
theorem C5_amended (c0 : Char) (cr : List Char)
    (hc : ∀ x ∈ c0 :: cr, x ≠ '`') (h0 : isWs c0 = false)
    (hl : isWs (((c0 :: cr).reverse).headD 'a') = false)
    (hb1 : hasSub ['\\', '['] (c0 :: cr) = false)
    (hb2 : hasSub ['\\', ']'] (c0 :: cr) = false)
    (hb3 : hasSub ['\\', '('] (c0 :: cr) = false)
    (hb4 : hasSub ['\\', ')'] (c0 :: cr) = false) :
    prepareContent (ticks ++ '\n' :: (c0 :: cr) ++ '\n' :: ticks)
      = if (c0 :: cr).contains '\\' || (c0 :: cr).contains '='
        then dd ++ (c0 :: cr) ++ dd
        else ticks ++ '\n' :: (c0 :: cr) ++ '\n' :: ticks := by
  show prepareContent ('`' :: '`' :: '`' :: '\n' :: ((c0 :: cr) ++ '\n' :: ticks)) = _
  have hfence : latexFenceGo
      ('`' :: '`' :: '`' :: '\n' :: ((c0 :: cr) ++ '\n' :: ticks)).length
      ('`' :: '`' :: '`' :: '\n' :: ((c0 :: cr) ++ '\n' :: ticks))
      = '`' :: '`' :: '`' :: '\n' :: ((c0 :: cr) ++ '\n' :: ticks) :=
    latexGo_fence c0 cr hc _
  have huntag : untagGo
      ('`' :: '`' :: '`' :: '\n' :: ((c0 :: cr) ++ '\n' :: ticks)).length
      ('`' :: '`' :: '`' :: '\n' :: ((c0 :: cr) ++ '\n' :: ticks))
      = if (c0 :: cr).contains '\\' || (c0 :: cr).contains '='
        then dd ++ (c0 :: cr) ++ dd
        else ticks ++ '\n' :: (c0 :: cr) ++ '\n' :: ticks :=
    untagGo_fence ('`' :: '`' :: '\n' :: ((c0 :: cr) ++ '\n' :: ticks)).length c0 cr hc h0 hl
  simp only [prepareContent]
  rw [hfence, huntag]
  cases hcond : ((c0 :: cr).contains '\\' || (c0 :: cr).contains '=') with
  | true =>
    rw [if_pos rfl]
    rw [repl2_id '\\' '[' '$' _ _ (hasSub_pair_dd (by decide) hb1),
      repl2_id '\\' ']' '$' _ _ (hasSub_pair_dd (by decide) hb2),
      repl2_id '\\' '(' '$' _ _ (hasSub_pair_dd (by decide) hb3),
      repl2_id '\\' ')' '$' _ _ (hasSub_pair_dd (by decide) hb4)]
  | false =>
    rw [if_neg (by simp)]
    rw [repl2_id '\\' '[' '$' _ _ (hasSub_pair_fence (by decide) hb1),
      repl2_id '\\' ']' '$' _ _ (hasSub_pair_fence (by decide) hb2),
      repl2_id '\\' '(' '$' _ _ (hasSub_pair_fence (by decide) hb3),
      repl2_id '\\' ')' '$' _ _ (hasSub_pair_fence (by decide) hb4)]

/-- Witness for C5 at the spec's two fences: an equals-sign content is
rewrapped in display dollars and a plain code content is preserved. -/
theorem C5_wit :
    (prepareContent (ticks ++ '\n' :: ('a' :: ((" = b").toList)) ++ '\n' :: ticks)
      = if ('a' :: ((" = b").toList)).contains '\\'
            || ('a' :: ((" = b").toList)).contains '='
        then dd ++ ('a' :: ((" = b").toList)) ++ dd
        else ticks ++ '\n' :: ('a' :: ((" = b").toList)) ++ '\n' :: ticks) ∧
    (prepareContent (ticks ++ '\n' :: ('f' :: (("oo()").toList)) ++ '\n' :: ticks)
      = if ('f' :: (("oo()").toList)).contains '\\'
            || ('f' :: (("oo()").toList)).contains '='
        then dd ++ ('f' :: (("oo()").toList)) ++ dd
        else ticks ++ '\n' :: ('f' :: (("oo()").toList)) ++ '\n' :: ticks) :=
  ⟨C5_amended 'a' ((" = b").toList) (by decide) (by decide) (by decide) (by decide)
      (by decide) (by decide) (by decide),
   C5_amended 'f' (("oo()").toList) (by decide) (by decide) (by decide) (by decide)
      (by decide) (by decide) (by decide)⟩

end S2P
